import Mathlib

set_option linter.unusedVariables false

/- Formal model of the Active Harmony standalone code-generation server
   (code-server/standalone/code_generator.cxx), embedded shallowly.
   C/C++ strings become List Char, byte buffers become List Nat, and the
   effectful primitives (fork/waitpid, the filesystem, system(3)) are
   modelled as explicit state passing or as the observable values the
   calls compute.  Functions keep the names of the source functions they
   embed. -/

/-- C isspace(3) for the default locale. -/
def c_isspace (c : Char) : Bool :=
  c == ' ' || c == '\t' || c == '\n' || c == '\x0b' || c == '\x0c' || c == '\r'

/-- Number of leading characters of a list satisfying p.  Used to model the
    bounded pointer-advancing while loops of parse_slave_list: a loop
    `while (head < tail && p(*head)) ++head` advances head by
    `scanWhile p ((cs.take tail).drop head)`. -/
def scanWhile (p : Char → Bool) : List Char → Nat
  | [] => 0
  | c :: cs => if p c then scanWhile p cs + 1 else 0

/-- The character for a single decimal digit. -/
def digitChar (d : Nat) : Char := Char.ofNat (48 + d)

/-- Digit-peeling loop for decimal rendering; the fuel argument is a bound
    on the number of divisions by 10 (the starting value itself suffices). -/
def natToDecAux : Nat → Nat → List Char → List Char
  | 0, _, acc => acc
  | fuel + 1, n, acc =>
    if n = 0 then acc else natToDecAux fuel (n / 10) (digitChar (n % 10) :: acc)

/-- Decimal rendering of a natural number, most significant digit first.
    Models the C++ stream output of a non-negative integer. -/
def natToDec (n : Nat) : List Char :=
  if n = 0 then ['0'] else natToDecAux n n []

/-- Decimal rendering of an integer; models C++ stream output of int/long. -/
def intToDec (i : Int) : List Char :=
  if i < 0 then '-' :: natToDec i.natAbs else natToDec i.toNat

/-- Index of the first comma of a character list, or its length when there is
    none.  Models `memchr(head, ',', end - head)` of parse_slave_list with
    positions taken relative to head (tail = end when no comma is found). -/
def findComma : List Char → Nat
  | [] => 0
  | c :: cs => if c = ',' then 0 else findComma cs + 1

/-- Numeric value of a digit character, in any base up to 36 (strtol digit
    alphabet); none when the character is not alphanumeric. -/
def digVal (c : Char) : Option Nat :=
  if '0' ≤ c ∧ c ≤ '9' then some (c.toNat - 48)
  else if 'a' ≤ c ∧ c ≤ 'z' then some (c.toNat - 87)
  else if 'A' ≤ c ∧ c ≤ 'Z' then some (c.toNat - 55)
  else none

/-- C isxdigit(3). -/
def c_isxdigit (c : Char) : Bool :=
  match digVal c with
  | some d => d < 16
  | none => false

/-- The digit-accumulation loop of strtol: consume digits valid in the given
    base, returning the accumulated magnitude and the number of characters
    consumed. -/
def digitsRun (base : Nat) : List Char → Nat → Nat → Nat × Nat
  | [], acc, cnt => (acc, cnt)
  | c :: cs, acc, cnt =>
    match digVal c with
    | some d => if d < base then digitsRun base cs (acc * base + d) (cnt + 1) else (acc, cnt)
    | none => (acc, cnt)

/-- LONG_MAX on the LP64 platforms the code server targets. -/
def LONG_MAX : Int := 2 ^ 63 - 1

/-- LONG_MIN on LP64. -/
def LONG_MIN : Int := -(2 ^ 63)

/-- Result of a strtol call: value, characters consumed (0 when no conversion
    was performed, so that endptr = nptr), and whether errno was set to
    ERANGE. -/
structure StrtolOut where
  value : Int
  consumed : Nat
  erange : Bool
deriving DecidableEq, Repr

/-- strtol(3) with base 0, shallowly embedded over the character list that
    starts at nptr: optional whitespace, optional sign, optional 0x/0
    base prefix, then digits; on overflow the value is clamped to
    LONG_MAX/LONG_MIN with ERANGE. -/
def strtol (cs : List Char) : StrtolOut :=
  let wsN := scanWhile c_isspace cs
  let cs1 := cs.drop wsN
  let c0 := cs1.headD '\x00'
  let sgn : Int := if c0 = '-' then -1 else 1
  let sgnN : Nat := if c0 = '-' ∨ c0 = '+' then 1 else 0
  let cs2 := cs1.drop sgnN
  let hex : Bool :=
    (cs2.headD '\x00' == '0') &&
      ((cs2.getD 1 '\x00' == 'x') || (cs2.getD 1 '\x00' == 'X')) &&
      c_isxdigit (cs2.getD 2 '\x00')
  let base := if hex then 16 else if cs2.headD '\x00' = '0' then 8 else 10
  let pfxN := if hex then 2 else 0
  let md := digitsRun base (cs2.drop pfxN) 0 0
  if md.2 = 0 then ⟨0, 0, false⟩
  else
    let v : Int := sgn * md.1
    if v > LONG_MAX then ⟨LONG_MAX, wsN + sgnN + pfxN + md.2, true⟩
    else if v < LONG_MIN then ⟨LONG_MIN, wsN + sgnN + pfxN + md.2, true⟩
    else ⟨v, wsN + sgnN + pfxN + md.2, false⟩

/-- One worker slot of the registry (generator_t of the source).  The hmesg_t
    field is an external opaque payload type (hmesg.h is not part of this
    code base) and carries no information the slot logic reads, so it is not
    modelled; step is uninitialized in the source until dispatch assigns it,
    modelled as 0. -/
structure generator_t where
  pid : Int
  step : Int
  hostname : List Char
deriving DecidableEq, Repr

/-- The slots pushed for one host entry: `for (long i = 1; i <= num; ++i)`
    pushes a slot named `<host>_<i>` with pid 0. -/
def slot_batch (host : List Char) (num : Int) : List generator_t :=
  (List.range num.toNat).map
    (fun i => { pid := 0, step := 0, hostname := host ++ '_' :: natToDec (i + 1) })

/-- The entry-consuming while loop of parse_slave_list, with the string
    represented by its suffix starting at head (all pointer positions become
    indices relative to head) and an explicit fuel argument that the wrapper
    instantiates with more than the string length (each iteration consumes at
    least one character, so the 0-fuel branch is never reached).  The two
    pointer-to-null comparisons of the source (`head == '\0'`,
    `head != '\0'`) are constant false resp. true and reduce to the isspace
    tests kept here. -/
def psl_loopF : Nat → List Char → List generator_t → Int × List generator_t
  | 0, _, acc => (0, acc)
  | _ + 1, [], acc => (0, acc)
  | fuel + 1, cs@(_ :: _), acc =>
    let t := findComma cs
    let h1 := scanWhile c_isspace (cs.take t)
    let h2 := h1 + scanWhile (fun c => !c_isspace c) ((cs.take t).drop h1)
    let host := (cs.drop h1).take (h2 - h1)
    let r := strtol (cs.drop (h2 + 1))
    let num : Int := if r.erange then -1 else r.value
    let h4 := if r.erange then t else h2 + 1 + r.consumed
    let h5 := h4 + scanWhile c_isspace ((cs.take t).drop h4)
    if host = [] ∨ num = -1 ∨ h5 ≠ t then (-1, [])
    else psl_loopF fuel (cs.drop (t + 1)) (acc ++ slot_batch host num)

/-- parse_slave_list: returns the C return code together with the resulting
    global gen_list.  The source first empties gen_list (so the loop starts
    from an empty accumulation), pushes `count` slots per entry, and on any
    malformed entry empties gen_list again and returns -1.  A NULL hostlist
    returns -1 before gen_list is touched. -/
def parse_slave_list (hostlist : Option (List Char)) (gen_list : List generator_t) :
    Int × List generator_t :=
  match hostlist with
  | none => (-1, gen_list)
  | some s => psl_loopF (s.length + 1) s []

/-- A parsed location (url_t of the source): four C++ strings. -/
structure url_t where
  path : List Char
  host : List Char
  user : List Char
  port : List Char
deriving DecidableEq, Repr

/-- Index of the first occurrence of the two-character substring "//";
    models `strstr(str, "//")` (none when absent, which the caller treats as
    an error). -/
def strstrSlashSlash : List Char → Option Nat
  | [] => none
  | c :: cs =>
    if c = '/' ∧ cs.headD '\x00' = '/' then some 0
    else (strstrSlashSlash cs).map (· + 1)

/-- Index of the first occurrence of a (non-NUL) character; models
    strchr(3). -/
def strchrIdx (x : Char) : List Char → Option Nat
  | [] => none
  | c :: cs => if c = x then some 0 else (strchrIdx x cs).map (· + 1)

/-- strncmp(3): compare at most n characters, stopping early at a NUL or at
    the first difference; list ends behave as the terminating NUL of the C
    string. -/
def strncmp : List Char → List Char → Nat → Int
  | _, _, 0 => 0
  | a, b, n + 1 =>
    let c1 := a.headD '\x00'
    let c2 := b.headD '\x00'
    if c1 ≠ c2 then (c1.toNat : Int) - (c2.toNat : Int)
    else if c1 = '\x00' then 0
    else strncmp a.tail b.tail n

/-- url_parse: takes the string and the url_t being mutated (dir:// leaves
    user and port untouched, and the ssh:// branch leaves port untouched when
    a colon is found, because the source never advances str before slicing
    the port).  Returns none for the -1 error paths, including the
    unimplemented tcp:// branch which falls through to `return -1`. -/
def url_parse (s : List Char) (url : url_t) : Option url_t :=
  match strstrSlashSlash s with
  | none => none
  | some k =>
    let n := k + 2
    if strncmp "dir://".data s n = 0 then
      some { url with path := s.drop n, host := [] }
    else if strncmp "ssh://".data s n = 0 then
      let str1 := s.drop n
      let us :=
        match strchrIdx '@' str1 with
        | some i => (str1.take i, str1.drop (i + 1))
        | none => ([], str1)
      let str2 := us.2
      let hp :=
        match strchrIdx ':' str2 with
        | some i => (str2.take i, url.port)
        | none => (([] : List Char), ([] : List Char))
      match strchrIdx '/' str2 with
      | none => none
      | some j =>
        if hp.1 = [] then
          some { path := str2.drop (j + 1), host := str2.take j, user := us.1, port := hp.2 }
        else
          some { path := str2.drop (j + 1), host := hp.1, user := us.1, port := str2.take j }
    else none

/-- dir_erase, modelled on the directory listing: returns the names that
    survive the readdir loop.  A name equal to "candidate.-1" is skipped
    before the prefix test; any other name whose first strlen("candidate")
    characters match the infile prefix is removed. -/
def dir_erase : List (List Char) → List (List Char)
  | [] => []
  | d :: rest =>
    if d = "candidate.-1".data then d :: dir_erase rest
    else if strncmp d "candidate".data ("candidate".data.length) = 0 then dir_erase rest
    else d :: dir_erase rest

/-- Observable effects of one mesg_write call on the success path of the
    local write: the local file name written, whether scp was invoked and
    with which command line, and whether the local file was removed
    afterwards.  The scp_status argument is the exit status system(3) would
    report for the scp command; the source ignores it. -/
structure MesgWriteEff where
  filename : List Char
  scp_invoked : Bool
  scp_command : List Char
  local_removed : Bool
deriving DecidableEq, Repr

/-- mesg_write: writes `<local path>/code_complete.<step>`, then, when a
    reply host is configured, builds and runs the scp command and removes the
    local file unconditionally (the system(3) return value is discarded). -/
def mesg_write (local_path : List Char) (reply : url_t) (step : Int) (scp_status : Int) :
    MesgWriteEff :=
  let filename := local_path ++ '/' :: "code_complete".data ++ '.' :: intToDec step
  if reply.host ≠ [] then
    let cmd := "scp ".data
      ++ (if reply.port ≠ [] then "-P ".data ++ reply.port else [])
      ++ filename ++ [' ']
      ++ (if reply.user ≠ [] then reply.user ++ ['@'] else [])
      ++ reply.host ++ ':' :: reply.path
    { filename := filename, scp_invoked := true, scp_command := cmd,
      local_removed := true }
  else
    { filename := filename, scp_invoked := false, scp_command := [],
      local_removed := false }

/-- Modelled from the spec: hmesg.h is not part of this code base, so the
    magic number the header file defines is represented by an arbitrary fixed
    4-byte constant (its exact value is irrelevant to every claim). -/
def HARMONY_MAGIC : Nat := 0x5261793e

/-- Modelled from the spec: the envelope header is the 4-byte magic in
    network byte order followed by the 16-bit big-endian total length, so
    HARMONY_HDRLEN is 6. -/
def HARMONY_HDRLEN : Nat := 6

/-- ntohl of four bytes read in file (network) order. -/
def be32 (b0 b1 b2 b3 : Nat) : Nat := ((b0 * 256 + b1) * 256 + b2) * 256 + b3

/-- ntohs of two bytes read in file (network) order. -/
def be16 (b0 b1 : Nat) : Nat := b0 * 256 + b1

/-- Core of read_loop: read n further bytes starting at pos, failing when the
    file ends first.  EINTR retries and partial reads collapse to reading one
    byte at a time. -/
def readN (file : List Nat) : Nat → Nat → Option Nat
  | pos, 0 => some pos
  | pos, n + 1 => if pos < file.length then readN file (pos + 1) n else none

/-- read_loop: its while loop runs only while len > 0, so a non-positive
    length succeeds immediately without touching the file. -/
def read_loop (file : List Nat) (pos : Nat) (len : Int) : Option Nat :=
  if 0 < len then readN file pos len.toNat else some pos

/-- The 4-byte magic of a file image, as mesg_read reads it. -/
def fileMagic (file : List Nat) : Nat :=
  be32 (file.getD 0 0) (file.getD 1 0) (file.getD 2 0) (file.getD 3 0)

/-- The declared 16-bit message length of a file image. -/
def fileMsgLen (file : List Nat) : Nat :=
  be16 (file.getD 4 0) (file.getD 5 0)

/-- mesg_read up to (and excluding) the external hmesg_deserialize call:
    returns the number of bytes consumed from the file together with the
    buffer contents (header copied, payload read, a NUL byte stored at index
    msglen), or none on the -1 error paths: header read failure, magic
    mismatch, or payload read failure.  For a declared length below 5 the
    source overflows its msglen+1-byte allocation (undefined behaviour); the
    buffer value returned here is only claimed meaningful for msglen ≥ 5. -/
def mesg_read (file : List Nat) : Option (Nat × List Nat) :=
  match read_loop file 0 (HARMONY_HDRLEN : Int) with
  | none => none
  | some pos1 =>
    if fileMagic file ≠ HARMONY_MAGIC then none
    else
      let msglen := fileMsgLen file
      match read_loop file pos1 ((msglen : Int) - (HARMONY_HDRLEN : Int)) with
      | none => none
      | some pos2 => some (pos2, file.take msglen ++ [0])

/-- One typed scalar of a point, as the session signature types it.
    Modelled from the spec: hval_t/index_value live in the external
    hpoint/hsession headers; the spec's Point Message is an ordered sequence
    of integer, real, or enumerated-string values. -/
inductive hval_t where
  | hint (v : Int)
  | hreal
  | hstr (s : List Char)
deriving DecidableEq, Repr

/-- Whether a value has integer type (HVAL_INT). -/
def hval_t.isInt : hval_t → Bool
  | .hint _ => true
  | _ => false

/-- The accumulation loop of values_of: push the integer payload of each
    value; on the first non-integer value, clear retval and break. -/
def values_of_loop : List hval_t → List Int → List Int
  | [], acc => acc
  | v :: rest, acc =>
    match v with
    | .hint x => values_of_loop rest (acc ++ [x])
    | _ => []

/-- values_of over the point's typed values. -/
def values_of (vals : List hval_t) : List Int :=
  values_of_loop vals []

/-- vector_to_string: a leading space, then each value followed by a
    space. -/
def vector_to_string (v : List Int) : List Char :=
  ' ' :: v.flatMap (fun x => intToDec x ++ [' '])

/-- vector_to_bash_array_remote: values wrapped in backslash-escaped double
    quotes (the remote form passes through an extra shell layer). -/
def vector_to_bash_array_remote (v : List Int) : List Char :=
  '\\' :: '"' :: v.flatMap (fun x => intToDec x ++ [' ']) ++ ['\\', '"', ' ']

/-- vector_to_bash_array_local: values wrapped in plain double quotes. -/
def vector_to_bash_array_local (v : List Int) : List Char :=
  '"' :: v.flatMap (fun x => intToDec x ++ [' ']) ++ ['"', ' ']

/-- The logical hostname of a slot: `hostname.substr(0, hostname.find("_"))`,
    the portion before the first underscore (the whole name when there is
    none, since substr(0, npos) is the whole string). -/
def logical_name (hostname : List Char) : List Char :=
  hostname.takeWhile (fun c => c ≠ '_')

/-- What one generator child process does, observably: the command line it
    hands to system(3) and the exit status of the child.  sys_return is the
    status system(3) reports for the external generation command; the source
    prints it and then calls exit(0) unconditionally (its own comment:
    "error check not done yet"). -/
structure GeneratorRun where
  command : List Char
  exit_status : Int
deriving DecidableEq, Repr

/-- generator_main, on the child side of the fork: build the local or remote
    command line for the slot's point values and run it. -/
def generator_main (gen : generator_t) (values : List Int)
    (appname slave_path : List Char) (local_url target_url : url_t)
    (sys_return : Int) : GeneratorRun :=
  let generator_name := logical_name gen.hostname
  let flag := generator_name = local_url.host
  let cmd :=
    (if flag then [] else "ssh ".data ++ generator_name ++ [' '])
    ++ "exec ".data ++ slave_path ++ '/' :: gen.hostname ++ '_' :: appname
    ++ "/chill_script.".data ++ appname ++ ".sh ".data
    ++ (if flag then vector_to_bash_array_local values
        else vector_to_bash_array_remote values)
    ++ generator_name ++ [' ']
    ++ slave_path ++ '/' :: gen.hostname ++ '_' :: appname ++ [' ']
    ++ target_url.host ++ [' '] ++ target_url.path
  { command := cmd, exit_status := 0 }

/-- The fatal-worker test of the dispatch loop (main, blocking waitpid
    branch): the coordinator exits when the reaped child did not exit
    normally or exited with a nonzero status. -/
def worker_failure_fatal (wifexited : Bool) (wexitstatus : Int) : Bool :=
  !wifexited || wexitstatus ≠ 0

/-- The slot-selection loop of main (lines 271-283): assign the new pid and
    the current timestep to the first slot whose pid is 0; when no slot is
    free the source hits assert(0), which aborts the process without mutating
    the registry, modelled as returning the registry unchanged. -/
def dispatch_slot : List generator_t → Int → Int → List generator_t
  | [], _, _ => []
  | g :: gs, newpid, stp =>
    if g.pid = 0 then { g with pid := newpid, step := stp } :: gs
    else g :: dispatch_slot gs newpid stp

/-- slave_complete: find the slot owning the reaped pid, publish its result
    (mesg_write, a file effect not represented in the slot state), scrub its
    message and set its pid back to 0; returns 0 when a slot matched and -1
    otherwise, paired with the updated registry. -/
def slave_complete : List generator_t → Int → Int × List generator_t
  | [], _ => (-1, [])
  | g :: gs, p =>
    if g.pid = p then (0, { g with pid := 0 } :: gs)
    else
      let r := slave_complete gs p
      (r.1, g :: r.2)

/-- Registry-mutating events of one coordinator session: a dispatch (fork
    returned newpid for the point of the given step), a reap (waitpid
    returned pid and slave_complete ran), or a registry rebuild from a new
    initialization message (parse_slave_list succeeded with these slots). -/
inductive CodeEv where
  | dispatch (newpid : Int) (step : Int)
  | reap (pid : Int)
  | reinit (slots : List generator_t)
deriving DecidableEq, Repr

/-- Effect of one event on the registry. -/
def runEv (slots : List generator_t) : CodeEv → List generator_t
  | .dispatch p s => dispatch_slot slots p s
  | .reap p => (slave_complete slots p).2
  | .reinit ns => ns

/-- Effect of an event trace on the registry. -/
def runTrace (slots : List generator_t) (evs : List CodeEv) : List generator_t :=
  evs.foldl runEv slots

/-- The process identities currently held by busy slots. -/
def livePids (slots : List generator_t) : List Int :=
  (slots.filter (fun g => g.pid ≠ 0)).map (fun g => g.pid)

/-- Environment assumptions for one event against the current registry:
    fork returns a positive pid distinct from every live child's pid, and a
    rebuilt registry comes from parse_slave_list, whose slots all carry
    pid 0. -/
def okEv (slots : List generator_t) : CodeEv → Bool
  | .dispatch p _ => 0 < p && (livePids slots).all (fun q => q ≠ p)
  | .reap _ => true
  | .reinit ns => ns.all (fun g => g.pid = 0)

/-- A whole trace satisfies the environment assumptions step by step. -/
def okTrace : List generator_t → List CodeEv → Bool
  | _, [] => true
  | slots, e :: evs => okEv slots e && okTrace (runEv slots e) evs

/-- The claimed registry invariant: no two slots hold the same nonzero
    process identity. -/
def PidInv (slots : List generator_t) : Prop :=
  (livePids slots).Nodup

/-- Canonical rendering of a worker host-spec from (host, count) entries:
    entries joined by a comma and a space, each entry `<host> <count>`,
    matching the spec's example "alpha 2, beta 1". -/
def renderSpec : List (List Char × Nat) → List Char
  | [] => []
  | [e] => e.1 ++ ' ' :: natToDec e.2
  | e :: es => e.1 ++ ' ' :: natToDec e.2 ++ ',' :: ' ' :: renderSpec es

/-- Validity of host-spec entries: a nonempty host containing no whitespace,
    comma, or NUL (a C string could not carry one), and a positive count
    representable as a C long. -/
def ValidEntries (es : List (List Char × Nat)) : Prop :=
  ∀ e ∈ es, e.1 ≠ [] ∧ (∀ c ∈ e.1, c_isspace c = false ∧ c ≠ ',' ∧ c ≠ '\x00') ∧
    1 ≤ e.2 ∧ (e.2 : Int) ≤ LONG_MAX

/-- The slots a valid host-spec should produce: per entry, count slots named
    `<host>_<1..count>`, in declaration order. -/
def expectedSlots (es : List (List Char × Nat)) : List generator_t :=
  es.flatMap (fun e =>
    (List.range e.2).map (fun i => ⟨0, 0, e.1 ++ '_' :: natToDec (i + 1)⟩))

/- ======================================================================
   Theorems
   ====================================================================== -/

/-- Facts about decimal digit characters, used to drive strtol through a
    rendered count. -/
lemma digitChar_facts (d : Nat) (hd : d < 10) :
    digVal (digitChar d) = some d ∧ c_isspace (digitChar d) = false ∧
      digitChar d ≠ ',' ∧ digitChar d ≠ '\x00' ∧ digitChar d ≠ '-' ∧
      digitChar d ≠ '+' ∧ (d ≠ 0 → digitChar d ≠ '0') := by
  interval_cases d <;> decide

/-- Unfolding of the fueled decimal renderer against Nat.digits. -/
lemma natToDecAux_eq (fuel : Nat) :
    ∀ n acc, n ≤ fuel →
      natToDecAux fuel n acc = (Nat.digits 10 n).reverse.map digitChar ++ acc := by
  induction fuel with
  | zero =>
    intro n acc h
    interval_cases n
    simp [natToDecAux]
  | succ fuel ih =>
    intro n acc h
    by_cases hn : n = 0
    · subst hn; simp [natToDecAux]
    · have hdiv : n / 10 ≤ fuel := by
        have : n / 10 < n := Nat.div_lt_self (Nat.pos_of_ne_zero hn) (by norm_num)
        omega
      rw [natToDecAux]
      simp only [hn, if_false]
      rw [ih (n / 10) _ hdiv]
      rw [Nat.digits_def' (by norm_num : (1 : ℕ) < 10) (Nat.pos_of_ne_zero hn)]
      simp [List.reverse_cons, List.map_append, List.append_assoc]

/-- natToDec agrees with the big-endian decimal digits of its argument. -/
lemma natToDec_eq (n : Nat) :
    natToDec n = if n = 0 then ['0'] else (Nat.digits 10 n).reverse.map digitChar := by
  unfold natToDec
  by_cases hn : n = 0
  · simp [hn]
  · simp only [hn, if_false]
    rw [natToDecAux_eq n n [] le_rfl, List.append_nil]

/-- Every character of a rendered natural number is a decimal digit. -/
lemma natToDec_digits (n : Nat) : ∀ c ∈ natToDec n, ∃ d, d < 10 ∧ c = digitChar d := by
  intro c hc
  rw [natToDec_eq] at hc
  by_cases hn : n = 0
  · simp [hn] at hc
    exact ⟨0, by norm_num, by rw [hc]; decide⟩
  · simp only [hn, if_false, List.mem_map, List.mem_reverse] at hc
    obtain ⟨d, hd, rfl⟩ := hc
    exact ⟨d, Nat.digits_lt_base (by norm_num) hd, rfl⟩

/-- A rendered positive number starts with a nonzero digit character. -/
lemma natToDec_head (n : Nat) (hn : n ≠ 0) :
    ∃ d ds, d < 10 ∧ d ≠ 0 ∧ natToDec n = digitChar d :: ds := by
  rw [natToDec_eq]
  simp only [hn, if_false]
  have hne : Nat.digits 10 n ≠ [] := Nat.digits_ne_nil_iff_ne_zero.mpr hn
  have hrev : (Nat.digits 10 n).reverse ≠ [] := by simpa using hne
  obtain ⟨d, L, hL⟩ := List.exists_cons_of_ne_nil hrev
  have hdmem : d ∈ Nat.digits 10 n := by
    have : d ∈ (Nat.digits 10 n).reverse := by rw [hL]; exact List.mem_cons_self d L
    simpa using this
  have hdlt : d < 10 := Nat.digits_lt_base (by norm_num) hdmem
  have hdlast : d = (Nat.digits 10 n).getLast hne := by
    have h1 : (Nat.digits 10 n).reverse.head? = some d := by rw [hL]; rfl
    rw [List.head?_reverse] at h1
    have h2 := List.getLast?_eq_getLast (Nat.digits 10 n) hne
    rw [h1] at h2
    exact Option.some_injective _ h2
  have hd0 : d ≠ 0 := by
    rw [hdlast]
    exact Nat.getLast_digit_ne_zero 10 hn
  exact ⟨d, L.map digitChar, hdlt, hd0, by rw [hL]; rfl⟩

/-- natToDec is never empty. -/
lemma natToDec_ne_nil (n : Nat) : natToDec n ≠ [] := by
  rw [natToDec_eq]
  by_cases hn : n = 0
  · simp [hn]
  · simp only [hn, if_false]
    simpa using Nat.digits_ne_nil_iff_ne_zero.mpr hn

/-- scanWhile counts through a block it accepts entirely. -/
lemma scanWhile_append_all (p : Char → Bool) (xs ys : List Char)
    (h : ∀ c ∈ xs, p c = true) :
    scanWhile p (xs ++ ys) = xs.length + scanWhile p ys := by
  induction xs with
  | nil => simp
  | cons c cs ih =>
    have hc : p c = true := h c (List.mem_cons_self c cs)
    simp only [List.cons_append, scanWhile, hc, if_true, List.append_eq]
    rw [ih (fun d hd => h d (List.mem_cons_of_mem c hd))]
    simp only [List.length_cons]
    omega

/-- scanWhile stops at a rejected head. -/
lemma scanWhile_cons_false (p : Char → Bool) (c : Char) (cs : List Char)
    (h : p c = false) : scanWhile p (c :: cs) = 0 := by
  simp [scanWhile, h]

/-- findComma skips over a comma-free block. -/
lemma findComma_append (xs ys : List Char) (h : ',' ∉ xs) :
    findComma (xs ++ ys) = xs.length + findComma ys := by
  induction xs with
  | nil => simp
  | cons c cs ih =>
    have hc : c ≠ ',' := by
      intro hh; exact h (hh ▸ List.mem_cons_self c cs)
    simp only [List.cons_append, findComma, hc, if_neg (by simpa using hc), List.append_eq]
    rw [ih (fun hm => h (List.mem_cons_of_mem c hm))]
    simp only [List.length_cons, if_false]
    omega

/-- findComma of the empty list is 0 (= its length). -/
lemma findComma_nil : findComma [] = 0 := rfl

/-- findComma stops at a leading comma. -/
lemma findComma_cons_comma (cs : List Char) : findComma (',' :: cs) = 0 := rfl

/-- The strtol digit loop consumes exactly a block of in-base digits when the
    next character is not an in-base digit. -/
lemma digitsRun_append (base : Nat) (ds : List Char) :
    ∀ (rest : List Char) (a cnt : Nat),
      (∀ c ∈ ds, ∃ d, d < base ∧ digVal c = some d) →
      (∀ d, digVal (rest.headD '\x00') = some d → base ≤ d) →
      digitsRun base (ds ++ rest) a cnt =
        (ds.foldl (fun x c => x * base + (digVal c).getD 0) a, cnt + ds.length) := by
  induction ds with
  | nil =>
    intro rest a cnt _ hrest
    cases rest with
    | nil => simp [digitsRun]
    | cons c r =>
      simp only [List.nil_append, digitsRun, List.foldl_nil, List.length_nil, Nat.add_zero]
      cases hv : digVal c with
      | none => simp
      | some d =>
        have := hrest d (by simpa using hv)
        simp [Nat.not_lt.mpr this]
  | cons c cs ih =>
    intro rest a cnt hds hrest
    obtain ⟨d, hdlt, hdv⟩ := hds c (List.mem_cons_self c cs)
    simp only [List.cons_append, digitsRun, hdv, hdlt, if_true, List.append_eq]
    rw [ih rest _ _ (fun x hx => hds x (List.mem_cons_of_mem c hx)) hrest]
    simp [hdv]
    omega

/-- Folding the digit accumulator over a big-endian digit rendering recovers
    the number. -/
lemma foldl_digits_value (L : List Nat) :
    ∀ a : Nat, (∀ d ∈ L, d < 10) →
      ((L.reverse.map digitChar).foldl (fun x c => x * 10 + (digVal c).getD 0) a)
        = a * 10 ^ L.length + Nat.ofDigits 10 L := by
  induction L with
  | nil => intro a _; simp [Nat.ofDigits]
  | cons d L ih =>
    intro a hL
    have hd : d < 10 := hL d (List.mem_cons_self d L)
    have hdigit := (digitChar_facts d hd).1
    simp only [List.reverse_cons, List.map_append, List.foldl_append]
    rw [ih a (fun x hx => hL x (List.mem_cons_of_mem d hx))]
    simp only [List.map_cons, List.map_nil, List.foldl_cons, List.foldl_nil, hdigit,
      Option.getD_some]
    rw [Nat.ofDigits_cons]
    simp only [List.length_cons, pow_succ]
    ring

/-- strtol on a canonically rendered positive count followed by a non-digit:
    parses the count exactly, consuming just its digits, with no range
    error. -/
lemma strtol_natToDec (n : Nat) (rest : List Char)
    (h1 : 1 ≤ n) (h2 : (n : Int) ≤ LONG_MAX)
    (hrest : digVal (rest.headD '\x00') = none) :
    strtol (natToDec n ++ rest) = ⟨(n : Int), (natToDec n).length, false⟩ := by
  obtain ⟨d0, ds, hd0lt, hd0ne, hshape⟩ := natToDec_head n (by omega)
  obtain ⟨hdv0, hsp0, _, _, hminus0, hplus0, hzero0⟩ := digitChar_facts d0 hd0lt
  have hz0 := hzero0 hd0ne
  have hcs : natToDec n ++ rest = digitChar d0 :: (ds ++ rest) := by
    rw [hshape]; rfl
  have hdigits : ∀ c ∈ natToDec n, ∃ d, d < 10 ∧ digVal c = some d := by
    intro c hc
    obtain ⟨d, hdlt, rfl⟩ := natToDec_digits n c hc
    exact ⟨d, hdlt, (digitChar_facts d hdlt).1⟩
  have hrun : digitsRun 10 (natToDec n ++ rest) 0 0 = (n, (natToDec n).length) := by
    rw [digitsRun_append 10 (natToDec n) rest 0 0 hdigits
      (fun d hd => by rw [hrest] at hd; exact absurd hd (by simp))]
    have hn0 : n ≠ 0 := by omega
    rw [natToDec_eq]
    simp only [hn0, if_false]
    rw [foldl_digits_value (Nat.digits 10 n) 0
      (fun x hx => Nat.digits_lt_base (by norm_num) hx)]
    simp [Nat.ofDigits_digits]
  unfold strtol
  simp only [hcs, scanWhile_cons_false c_isspace _ _ hsp0, List.drop_zero, List.headD_cons]
  have hsgn : ¬(digitChar d0 = '-' ∨ digitChar d0 = '+') := by
    rintro (h | h)
    · exact hminus0 h
    · exact hplus0 h
  have hbeq : (digitChar d0 == '0') = false := by
    simp [hz0]
  simp only [if_neg hsgn, List.drop_zero, List.headD_cons, hbeq, Bool.false_and,
    Bool.false_eq_true, if_false, if_neg hz0, if_neg hminus0]
  rw [← hcs, hrun]
  have hlen : ¬((n, (natToDec n).length).2 = 0) := by
    simpa using natToDec_ne_nil n
  rw [if_neg hlen]
  have hnotgt : ¬(1 * ((n, (natToDec n).length).1 : Int) > LONG_MAX) := by
    simpa using not_lt.mpr h2
  rw [if_neg hnotgt]
  have hnotlt : ¬(1 * ((n, (natToDec n).length).1 : Int) < LONG_MIN) := by
    unfold LONG_MIN
    simp only [one_mul]
    omega
  rw [if_neg hnotlt]
  simp

/-- findComma steps over a non-comma head. -/
lemma findComma_cons_ne (c : Char) (cs : List Char) (h : c ≠ ',') :
    findComma (c :: cs) = findComma cs + 1 := by
  simp [findComma, h]

/-- One-step unfolding of the entry loop on a nonempty string. -/
lemma psl_loopF_cons_unfold (fuel : Nat) (cs : List Char) (acc : List generator_t)
    (hne : cs ≠ []) :
    psl_loopF (fuel + 1) cs acc =
      (let t := findComma cs
       let h1 := scanWhile c_isspace (cs.take t)
       let h2 := h1 + scanWhile (fun c => !c_isspace c) ((cs.take t).drop h1)
       let host := (cs.drop h1).take (h2 - h1)
       let r := strtol (cs.drop (h2 + 1))
       let num : Int := if r.erange then -1 else r.value
       let h4 := if r.erange then t else h2 + 1 + r.consumed
       let h5 := h4 + scanWhile c_isspace ((cs.take t).drop h4)
       if host = [] ∨ num = -1 ∨ h5 ≠ t then (-1, [])
       else psl_loopF fuel (cs.drop (t + 1)) (acc ++ slot_batch host num)) := by
  obtain ⟨c, cs', rfl⟩ := List.exists_cons_of_ne_nil hne
  rfl

/-- The entry loop is insensitive to its fuel, provided the fuel exceeds the
    string length (each iteration consumes at least one character). -/
lemma psl_loopF_fuel (f1 : Nat) :
    ∀ f2 cs acc, cs.length < f1 → cs.length < f2 →
      psl_loopF f1 cs acc = psl_loopF f2 cs acc := by
  induction f1 with
  | zero => intro f2 cs acc h1 _; omega
  | succ f1 ih =>
    intro f2 cs acc h1 h2
    cases cs with
    | nil =>
      cases f2 with
      | zero => rfl
      | succ f2 => rfl
    | cons c cs' =>
      obtain ⟨f2', rfl⟩ : ∃ f2', f2 = f2' + 1 := by
        cases f2 with
        | zero => simp at h2
        | succ k => exact ⟨k, rfl⟩
      rw [psl_loopF_cons_unfold f1 _ _ (by simp), psl_loopF_cons_unfold f2' _ _ (by simp)]
      simp only []
      split_ifs <;>
        first
          | rfl
          | (apply ih <;>
              (simp only [List.length_drop, List.length_cons] at h1 h2 ⊢; omega))

/-- Whenever the entry loop reports an error, it leaves the accumulated slot
    list empty (gen_list is emptied on the error path). -/
lemma psl_loopF_err_nil (fuel : Nat) :
    ∀ cs acc, (psl_loopF fuel cs acc).1 ≠ 0 → (psl_loopF fuel cs acc).2 = [] := by
  induction fuel with
  | zero => intro cs acc h; simp [psl_loopF] at h
  | succ fuel ih =>
    intro cs acc h
    cases cs with
    | nil => simp [psl_loopF] at h
    | cons c cs' =>
      rw [psl_loopF_cons_unfold fuel _ _ (by simp)] at h ⊢
      simp only [] at h ⊢
      split_ifs at h ⊢ <;>
        first
          | rfl
          | exact ih _ _ h

/-- Consuming one rendered entry `<ws><host> <count>` followed by nothing or
    by a comma: the loop pushes the entry's slot batch and continues after
    the comma. -/
lemma psl_entry_step (fuel k : Nat) (hs : List Char) (n : Nat) (tl : List Char)
    (acc : List generator_t)
    (hh : hs ≠ [])
    (hchars : ∀ c ∈ hs, c_isspace c = false ∧ c ≠ ',' ∧ c ≠ '\x00')
    (hn1 : 1 ≤ n) (hn2 : (n : Int) ≤ LONG_MAX)
    (htl : tl = [] ∨ ∃ tl2, tl = ',' :: tl2) :
    psl_loopF (fuel + 1) (List.replicate k ' ' ++ (hs ++ ' ' :: (natToDec n ++ tl))) acc =
      psl_loopF fuel (tl.drop 1) (acc ++ slot_batch hs (n : Int)) := by
  have hdsdig : ∀ c ∈ natToDec n, c_isspace c = false ∧ c ≠ ',' := by
    intro c hc
    obtain ⟨d, hdlt, rfl⟩ := natToDec_digits n c hc
    obtain ⟨_, hsp, hcm, _⟩ := digitChar_facts d hdlt
    exact ⟨hsp, hcm⟩
  obtain ⟨hc0, hs', rfl⟩ := List.exists_cons_of_ne_nil hh
  set ds := natToDec n with hdsdef
  set cs := List.replicate k ' ' ++ ((hc0 :: hs') ++ ' ' :: (ds ++ tl)) with hcsdef
  have hT : (List.replicate k ' ' ++ ((hc0 :: hs') ++ ' ' :: ds)).length =
      k + (hc0 :: hs').length + 1 + ds.length := by
    simp only [List.length_append, List.length_replicate, List.length_cons]
    omega
  have hsplit : cs = (List.replicate k ' ' ++ ((hc0 :: hs') ++ ' ' :: ds)) ++ tl := by
    simp [hcsdef, List.append_assoc]
  have hcs_ne : cs ≠ [] := by
    rw [hsplit]
    simp
  have ht : findComma cs = k + (hc0 :: hs').length + 1 + ds.length := by
    rw [hcsdef]
    rw [findComma_append _ _
      (fun hm => by have := List.eq_of_mem_replicate hm; simp at this)]
    rw [findComma_append _ _
      (fun hm => (hchars ',' hm).2.1 rfl)]
    rw [findComma_cons_ne ' ' _ (by decide)]
    rw [findComma_append _ _
      (fun hm => (hdsdig ',' hm).2 rfl)]
    have htl0 : findComma tl = 0 := by
      rcases htl with rfl | ⟨tl2, rfl⟩
      · rfl
      · rfl
    rw [htl0]
    simp only [List.length_replicate]
    omega
  have htake : cs.take (k + (hc0 :: hs').length + 1 + ds.length) =
      List.replicate k ' ' ++ ((hc0 :: hs') ++ ' ' :: ds) := by
    rw [hsplit, List.take_left' hT]
  have hh1 : scanWhile c_isspace (List.replicate k ' ' ++ ((hc0 :: hs') ++ ' ' :: ds)) = k := by
    rw [scanWhile_append_all _ _ _
      (fun c hc => by rw [List.eq_of_mem_replicate hc]; decide)]
    simp only [List.cons_append]
    rw [scanWhile_cons_false _ _ _ (hchars hc0 (List.mem_cons_self hc0 hs')).1]
    simp only [List.length_replicate]
    omega
  have hdropk : (List.replicate k ' ' ++ ((hc0 :: hs') ++ ' ' :: ds)).drop k =
      (hc0 :: hs') ++ ' ' :: ds := by
    rw [List.drop_left' (List.length_replicate k ' ')]
  have hh2 : scanWhile (fun c => !c_isspace c) ((hc0 :: hs') ++ ' ' :: ds) =
      (hc0 :: hs').length := by
    rw [scanWhile_append_all _ _ _
      (fun c hc => by rw [(hchars c hc).1]; rfl)]
    rw [scanWhile_cons_false _ _ _ (by decide)]
    omega
  have hdropk' : cs.drop k = (hc0 :: hs') ++ ' ' :: (ds ++ tl) := by
    rw [hcsdef, List.drop_left' (List.length_replicate k ' ')]
  have hhost : ((hc0 :: hs') ++ ' ' :: (ds ++ tl)).take ((hc0 :: hs').length) =
      hc0 :: hs' := List.take_left _ _
  have hsplit2 : cs = (List.replicate k ' ' ++ ((hc0 :: hs') ++ [' '])) ++ (ds ++ tl) := by
    simp [hcsdef, List.append_assoc]
  have hlen2 : (List.replicate k ' ' ++ ((hc0 :: hs') ++ [' '])).length =
      k + (hc0 :: hs').length + 1 := by
    simp [List.length_append, List.length_replicate]
    omega
  have hdropnum : cs.drop (k + (hc0 :: hs').length + 1) = ds ++ tl := by
    rw [hsplit2, List.drop_left' hlen2]
  have hstr : strtol (ds ++ tl) = ⟨(n : Int), ds.length, false⟩ := by
    rw [hdsdef]
    apply strtol_natToDec n tl hn1 hn2
    rcases htl with rfl | ⟨tl2, rfl⟩
    · rfl
    · rfl
  have hdropT : ((List.replicate k ' ' ++ ((hc0 :: hs') ++ ' ' :: ds))).drop
      (k + (hc0 :: hs').length + 1 + ds.length) = [] := by
    rw [← hT, List.drop_length]
  have hdropnext : cs.drop (k + (hc0 :: hs').length + 1 + ds.length + 1) = tl.drop 1 := by
    rw [hsplit]
    have : k + (hc0 :: hs').length + 1 + ds.length + 1 =
        (List.replicate k ' ' ++ ((hc0 :: hs') ++ ' ' :: ds)).length + 1 := by
      rw [hT]
    rw [this, List.drop_append 1]
  rw [psl_loopF_cons_unfold fuel cs acc hcs_ne]
  simp only [ht, htake, hh1, hdropk, hh2, hdropk', Nat.add_sub_cancel_left, hhost,
    hdropnum, hstr, hdropT, hdropnext]
  simp only [Bool.false_eq_true, if_false]
  simp only [hdropT, scanWhile, Nat.add_zero]
  have hguard : ¬(hc0 :: hs' = [] ∨ ((n : Int) = -1) ∨
      k + (hc0 :: hs').length + 1 + ds.length ≠ k + (hc0 :: hs').length + 1 + ds.length) := by
    push_neg
    refine ⟨by simp, by intro hcon; omega, rfl⟩
  rw [if_neg hguard]

/-- The entry loop on an empty remainder returns success with the slots
    accumulated so far. -/
lemma psl_loopF_nil (fuel : Nat) (acc : List generator_t) :
    psl_loopF fuel [] acc = (0, acc) := by
  cases fuel with
  | zero => rfl
  | succ f => rfl

/-- slot_batch at a natural count is the per-entry slot list of
    expectedSlots. -/
lemma slot_batch_coe (hs : List Char) (n : Nat) :
    slot_batch hs (n : Int) =
      (List.range n).map (fun i => ⟨0, 0, hs ++ '_' :: natToDec (i + 1)⟩) := by
  simp [slot_batch]

/-- The entry loop consumes a whole canonically rendered spec (with optional
    leading spaces), producing exactly the expected slots. -/
lemma psl_loop_render :
    ∀ es : List (List Char × Nat), ValidEntries es → es ≠ [] →
      ∀ (k : Nat) (acc : List generator_t) (fuel : Nat),
        (List.replicate k ' ' ++ renderSpec es).length < fuel →
        psl_loopF fuel (List.replicate k ' ' ++ renderSpec es) acc =
          (0, acc ++ expectedSlots es) := by
  intro es
  induction es with
  | nil => intro _ hne; exact absurd rfl hne
  | cons e rest ih =>
    intro hv _ k acc fuel hfuel
    obtain ⟨fuel', rfl⟩ : ∃ f, fuel = f + 1 := by
      cases fuel with
      | zero => omega
      | succ f => exact ⟨f, rfl⟩
    have hve := hv e (List.mem_cons_self e rest)
    obtain ⟨hh, hchars, hn1, hn2⟩ := hve
    cases rest with
    | nil =>
      have hstep := psl_entry_step fuel' k e.1 e.2 [] acc hh hchars hn1 hn2 (Or.inl rfl)
      simp only [List.append_nil, List.drop_nil] at hstep
      have hrs : renderSpec [e] = e.1 ++ ' ' :: natToDec e.2 := rfl
      rw [hrs, hstep, psl_loopF_nil]
      simp [expectedSlots, slot_batch_coe]
    | cons e2 rest' =>
      have hvrest : ValidEntries (e2 :: rest') := fun x hx => hv x (List.mem_cons_of_mem e hx)
      have hstep := psl_entry_step fuel' k e.1 e.2 (',' :: ' ' :: renderSpec (e2 :: rest')) acc
        hh hchars hn1 hn2 (Or.inr ⟨_, rfl⟩)
      have hshape : List.replicate k ' ' ++ renderSpec (e :: e2 :: rest') =
          List.replicate k ' ' ++
            (e.1 ++ ' ' :: (natToDec e.2 ++ (',' :: ' ' :: renderSpec (e2 :: rest')))) := by
        simp [renderSpec, List.append_assoc, List.cons_append]
      have hlen : (List.replicate 1 ' ' ++ renderSpec (e2 :: rest')).length < fuel' := by
        have hL := congrArg List.length hshape
        simp only [List.length_append, List.length_replicate, List.length_cons] at hL hfuel ⊢
        omega
      rw [hshape, hstep]
      have hdrop : (',' :: ' ' :: renderSpec (e2 :: rest')).drop 1 =
          List.replicate 1 ' ' ++ renderSpec (e2 :: rest') := by
        simp [List.replicate]
      rw [hdrop]
      rw [ih hvrest (by simp) 1 (acc ++ slot_batch e.1 (e.2 : Int)) fuel' hlen]
      simp [expectedSlots, slot_batch_coe, List.append_assoc]

/-- The expected slot list has one slot per unit of count. -/
lemma expectedSlots_length (es : List (List Char × Nat)) :
    (expectedSlots es).length = (es.map (fun e => e.2)).sum := by
  induction es with
  | nil => rfl
  | cons e rest ih =>
    simp [expectedSlots, List.flatMap_cons, List.length_append] at ih ⊢
    omega

/-- C2: for every valid worker host-spec (comma-separated `<host> <count>`
    entries, rendered canonically), parse_slave_list succeeds and produces,
    in declaration order, exactly sum-of-counts slots named `<host>_1`
    through `<host>_<count>` per entry. -/
theorem spec_c2_registry_parse (es : List (List Char × Nat)) (hv : ValidEntries es)
    (gl : List generator_t) :
    parse_slave_list (some (renderSpec es)) gl = (0, expectedSlots es) ∧
      (expectedSlots es).length = (es.map (fun e => e.2)).sum := by
  refine ⟨?_, expectedSlots_length es⟩
  cases es with
  | nil => rfl
  | cons e rest =>
    show psl_loopF ((renderSpec (e :: rest)).length + 1) (renderSpec (e :: rest)) [] = _
    have h := psl_loop_render (e :: rest) hv (by simp) 0 [] ((renderSpec (e :: rest)).length + 1)
      (by simp)
    simpa using h

/-- C2 witness: the spec's example "alpha 2, beta 1" yields slots alpha_1,
    alpha_2, beta_1. -/
theorem spec_c2_registry_parse_witness :
    parse_slave_list (some "alpha 2, beta 1".data) [] =
      (0, [⟨0, 0, "alpha_1".data⟩, ⟨0, 0, "alpha_2".data⟩, ⟨0, 0, "beta_1".data⟩]) := by
  have h := (spec_c2_registry_parse [("alpha".data, 2), ("beta".data, 1)]
    (by unfold ValidEntries; decide) []).1
  have hr : renderSpec [("alpha".data, 2), ("beta".data, 1)] = "alpha 2, beta 1".data := by
    decide
  have he : expectedSlots [("alpha".data, 2), ("beta".data, 1)] =
      [⟨0, 0, "alpha_1".data⟩, ⟨0, 0, "alpha_2".data⟩, ⟨0, 0, "beta_1".data⟩] := by decide
  rw [hr, he] at h
  exact h

/-- C3 counterexample: a zero count is claimed malformed (an error), but the
    parse accepts "alpha 0", returning success (0, not the error code -1)
    with an empty registry. -/
theorem spec_c3_counterexample :
    parse_slave_list (some "alpha 0".data) [] = (0, []) ∧ (0 : Int) ≠ -1 := by
  constructor
  · decide
  · decide

/-- C3 amended: an empty host, trailing characters before the entry
    boundary, a count of exactly -1, or a missing count with the host running
    to the entry boundary all make the parse return the error -1, and every
    erroneous parse leaves the registry empty (all-or-nothing); but a zero or
    negative count other than -1 is accepted and merely contributes no
    slots. -/
theorem spec_c3_amended :
    (∀ s acc, (parse_slave_list (some s) acc).1 ≠ 0 →
      (parse_slave_list (some s) acc).2 = []) ∧
    (parse_slave_list (some ", beta 1".data) []).1 = -1 ∧
    (parse_slave_list (some "alpha 2 extra".data) []).1 = -1 ∧
    (parse_slave_list (some "alpha".data) []).1 = -1 ∧
    (parse_slave_list (some "alpha -1".data) []).1 = -1 ∧
    parse_slave_list (some "alpha 0".data) [] = (0, []) ∧
    parse_slave_list (some "alpha -2".data) [] = (0, []) := by
  refine ⟨?_, by decide, by decide, by decide, by decide, by decide, by decide⟩
  intro s acc h
  exact psl_loopF_err_nil _ _ _ h

/-- C3 witness: the all-or-nothing clause applied to a concrete erroneous
    spec. -/
theorem spec_c3_amended_witness :
    (parse_slave_list (some "alpha".data) []).2 = [] :=
  spec_c3_amended.1 "alpha".data [] (by decide)

/-- strchr misses a list not containing the character. -/
lemma strchrIdx_not_mem (x : Char) (l : List Char) (h : x ∉ l) : strchrIdx x l = none := by
  induction l with
  | nil => rfl
  | cons c cs ih =>
    have hc : c ≠ x := fun hh => h (hh ▸ List.mem_cons_self c cs)
    simp only [strchrIdx, if_neg hc]
    rw [ih (fun hm => h (List.mem_cons_of_mem c hm))]
    rfl

/-- strchr finds the first occurrence just after a block without it. -/
lemma strchrIdx_append (x : Char) (l r : List Char) (h : x ∉ l) :
    strchrIdx x (l ++ x :: r) = some l.length := by
  induction l with
  | nil => simp [strchrIdx]
  | cons c cs ih =>
    have hc : c ≠ x := fun hh => h (hh ▸ List.mem_cons_self c cs)
    simp only [List.cons_append, strchrIdx, if_neg hc, List.append_eq]
    rw [ih (fun hm => h (List.mem_cons_of_mem c hm))]
    simp [List.length_cons]

/-- The "//" of an ssh:// URL is found at index 4. -/
lemma strstrSS_ssh (r : List Char) :
    strstrSlashSlash ('s' :: 's' :: 'h' :: ':' :: '/' :: '/' :: r) = some 4 := by
  simp [strstrSlashSlash]

/-- The "//" of a dir:// URL is found at index 4. -/
lemma strstrSS_dir (r : List Char) :
    strstrSlashSlash ('d' :: 'i' :: 'r' :: ':' :: '/' :: '/' :: r) = some 4 := by
  simp [strstrSlashSlash]

/-- The "//" of a tcp:// URL is found at index 4. -/
lemma strstrSS_tcp (r : List Char) :
    strstrSlashSlash ('t' :: 'c' :: 'p' :: ':' :: '/' :: '/' :: r) = some 4 := by
  simp [strstrSlashSlash]

/-- An identical 6-character scheme prefix compares equal under strncmp. -/
lemma strncmp_self6 (pre : List Char) (hlen : pre.length = 6) (hnul : '\x00' ∉ pre)
    (r : List Char) : strncmp pre (pre ++ r) 6 = 0 := by
  match pre, hlen with
  | [a, b, c, d, e, f], _ =>
    simp only [List.mem_cons, not_or] at hnul
    obtain ⟨ha, hb, hc, hd, he, hf, -⟩ := hnul
    simp [strncmp, ha, hb, hc, hd, he, hf]

/-- Scheme prefixes with different first characters compare unequal. -/
lemma strncmp_head_ne (a b : Char) (as bs : List Char) (n : Nat)
    (hab : a ≠ b) (ha : a ≠ '\x00') :
    strncmp (a :: as) (b :: bs) (n + 1) ≠ 0 := by
  simp only [strncmp, List.headD_cons]
  rw [if_pos hab]
  intro h
  have hval : a.toNat = b.toNat := by omega
  apply hab
  apply Char.ext
  unfold Char.toNat at hval
  exact UInt32.toNat.inj hval

/-- A dir:// comparison fails on an ssh:// string. -/
lemma strncmp_dir_on_ssh (r : List Char) :
    strncmp ['d', 'i', 'r', ':', '/', '/'] ('s' :: 's' :: 'h' :: ':' :: '/' :: '/' :: r) 6 ≠ 0 :=
  strncmp_head_ne 'd' 's' _ _ 5 (by decide) (by decide)

/-- An ssh:// comparison succeeds on an ssh:// string. -/
lemma strncmp_ssh_on_ssh (r : List Char) :
    strncmp ['s', 's', 'h', ':', '/', '/'] ('s' :: 's' :: 'h' :: ':' :: '/' :: '/' :: r) 6 = 0 := by
  have h := strncmp_self6 ['s', 's', 'h', ':', '/', '/'] (by decide) (by decide) r
  simpa using h

/-- A dir:// comparison succeeds on a dir:// string. -/
lemma strncmp_dir_on_dir (r : List Char) :
    strncmp ['d', 'i', 'r', ':', '/', '/'] ('d' :: 'i' :: 'r' :: ':' :: '/' :: '/' :: r) 6 = 0 := by
  have h := strncmp_self6 ['d', 'i', 'r', ':', '/', '/'] (by decide) (by decide) r
  simpa using h

/-- url_parse of `ssh://user@host:port/path`: user, host and path land in
    their fields, but the port field receives everything from the start of
    the host up to the path slash, i.e. "host:port". -/
lemma url_parse_ssh_user_port (u hst p pa : List Char) (u0 : url_t)
    (hu : '@' ∉ u) (hhc : ':' ∉ hst) (hhs : '/' ∉ hst) (hps : '/' ∉ p) (hh : hst ≠ []) :
    url_parse ("ssh://".data ++ (u ++ '@' :: (hst ++ ':' :: (p ++ '/' :: pa)))) u0 =
      some ⟨pa, hst, u, hst ++ ':' :: p⟩ := by
  show url_parse
    ('s' :: 's' :: 'h' :: ':' :: '/' :: '/' :: (u ++ '@' :: (hst ++ ':' :: (p ++ '/' :: pa))))
    u0 = _
  have hat : strchrIdx '@' (u ++ '@' :: (hst ++ ':' :: (p ++ '/' :: pa))) = some u.length :=
    strchrIdx_append '@' u _ hu
  have htk : (u ++ '@' :: (hst ++ ':' :: (p ++ '/' :: pa))).take u.length = u :=
    List.take_left u _
  have hdp : (u ++ '@' :: (hst ++ ':' :: (p ++ '/' :: pa))).drop (u.length + 1) =
      hst ++ ':' :: (p ++ '/' :: pa) := by
    rw [List.drop_append 1]
    rfl
  have hcol : strchrIdx ':' (hst ++ ':' :: (p ++ '/' :: pa)) = some hst.length :=
    strchrIdx_append ':' hst _ hhc
  have hsh : hst ++ ':' :: (p ++ '/' :: pa) = (hst ++ ':' :: p) ++ '/' :: pa := by
    simp [List.append_assoc]
  have hnos : '/' ∉ hst ++ ':' :: p := by
    intro hm
    rcases List.mem_append.mp hm with hm1 | hm2
    · exact hhs hm1
    · rcases List.mem_cons.mp hm2 with hcc | hcc
      · exact absurd hcc (by decide)
      · exact hps hcc
  have hslash : strchrIdx '/' (hst ++ ':' :: (p ++ '/' :: pa)) =
      some (hst ++ ':' :: p).length := by
    rw [hsh, strchrIdx_append '/' _ _ hnos]
  have htkh : (hst ++ ':' :: (p ++ '/' :: pa)).take hst.length = hst := List.take_left hst _
  have htkj : (hst ++ ':' :: (p ++ '/' :: pa)).take ((hst ++ ':' :: p).length) =
      hst ++ ':' :: p := by
    rw [hsh]
    exact List.take_left _ _
  have hdpj : (hst ++ ':' :: (p ++ '/' :: pa)).drop ((hst ++ ':' :: p).length + 1) = pa := by
    rw [hsh, List.drop_append 1]
    rfl
  simp only [url_parse, strstrSS_ssh]
  rw [if_neg (strncmp_dir_on_ssh _), if_pos (strncmp_ssh_on_ssh _)]
  have hdrop6 : List.drop 6
      ('s' :: 's' :: 'h' :: ':' :: '/' :: '/' :: (u ++ '@' :: (hst ++ ':' :: (p ++ '/' :: pa)))) =
      u ++ '@' :: (hst ++ ':' :: (p ++ '/' :: pa)) := rfl
  rw [hdrop6]
  simp only [hat, hdp, htk, hcol, hslash, htkh, htkj, hdpj]
  rw [if_neg hh]

/-- url_parse of `ssh://user@host/path` (no port anywhere in host or path):
    port comes out empty. -/
lemma url_parse_ssh_user_noport (u hst pa : List Char) (u0 : url_t)
    (hu : '@' ∉ u) (hhc : ':' ∉ hst) (hpc : ':' ∉ pa) (hhs : '/' ∉ hst) :
    url_parse ("ssh://".data ++ (u ++ '@' :: (hst ++ '/' :: pa))) u0 =
      some ⟨pa, hst, u, []⟩ := by
  show url_parse
    ('s' :: 's' :: 'h' :: ':' :: '/' :: '/' :: (u ++ '@' :: (hst ++ '/' :: pa))) u0 = _
  have hat : strchrIdx '@' (u ++ '@' :: (hst ++ '/' :: pa)) = some u.length :=
    strchrIdx_append '@' u _ hu
  have htk : (u ++ '@' :: (hst ++ '/' :: pa)).take u.length = u := List.take_left u _
  have hdp : (u ++ '@' :: (hst ++ '/' :: pa)).drop (u.length + 1) = hst ++ '/' :: pa := by
    rw [List.drop_append 1]
    rfl
  have hcol : strchrIdx ':' (hst ++ '/' :: pa) = none := by
    apply strchrIdx_not_mem
    intro hm
    rcases List.mem_append.mp hm with hm1 | hm2
    · exact hhc hm1
    · rcases List.mem_cons.mp hm2 with hcc | hcc
      · exact absurd hcc (by decide)
      · exact hpc hcc
  have hslash : strchrIdx '/' (hst ++ '/' :: pa) = some hst.length :=
    strchrIdx_append '/' hst _ hhs
  have htkh : (hst ++ '/' :: pa).take hst.length = hst := List.take_left hst _
  have hdpj : (hst ++ '/' :: pa).drop (hst.length + 1) = pa := by
    rw [List.drop_append 1]
    rfl
  simp only [url_parse, strstrSS_ssh]
  rw [if_neg (strncmp_dir_on_ssh _), if_pos (strncmp_ssh_on_ssh _)]
  have hdrop6 : List.drop 6
      ('s' :: 's' :: 'h' :: ':' :: '/' :: '/' :: (u ++ '@' :: (hst ++ '/' :: pa))) =
      u ++ '@' :: (hst ++ '/' :: pa) := rfl
  rw [hdrop6]
  simp only [hat, hdp, htk, hcol, hslash, htkh, hdpj]
  simp

/-- url_parse of `ssh://host:port/path` (no user): as in the user case, the
    port field receives "host:port". -/
lemma url_parse_ssh_nouser_port (hst p pa : List Char) (u0 : url_t)
    (hah : '@' ∉ hst) (hap : '@' ∉ p) (hapa : '@' ∉ pa)
    (hhc : ':' ∉ hst) (hhs : '/' ∉ hst) (hps : '/' ∉ p) (hh : hst ≠ []) :
    url_parse ("ssh://".data ++ (hst ++ ':' :: (p ++ '/' :: pa))) u0 =
      some ⟨pa, hst, [], hst ++ ':' :: p⟩ := by
  show url_parse
    ('s' :: 's' :: 'h' :: ':' :: '/' :: '/' :: (hst ++ ':' :: (p ++ '/' :: pa))) u0 = _
  have hat : strchrIdx '@' (hst ++ ':' :: (p ++ '/' :: pa)) = none := by
    apply strchrIdx_not_mem
    intro hm
    rcases List.mem_append.mp hm with hm1 | hm2
    · exact hah hm1
    · rcases List.mem_cons.mp hm2 with hcc | hcc
      · exact absurd hcc (by decide)
      · rcases List.mem_append.mp hcc with hm3 | hm4
        · exact hap hm3
        · rcases List.mem_cons.mp hm4 with hdd | hdd
          · exact absurd hdd (by decide)
          · exact hapa hdd
  have hcol : strchrIdx ':' (hst ++ ':' :: (p ++ '/' :: pa)) = some hst.length :=
    strchrIdx_append ':' hst _ hhc
  have hsh : hst ++ ':' :: (p ++ '/' :: pa) = (hst ++ ':' :: p) ++ '/' :: pa := by
    simp [List.append_assoc]
  have hnos : '/' ∉ hst ++ ':' :: p := by
    intro hm
    rcases List.mem_append.mp hm with hm1 | hm2
    · exact hhs hm1
    · rcases List.mem_cons.mp hm2 with hcc | hcc
      · exact absurd hcc (by decide)
      · exact hps hcc
  have hslash : strchrIdx '/' (hst ++ ':' :: (p ++ '/' :: pa)) =
      some (hst ++ ':' :: p).length := by
    rw [hsh, strchrIdx_append '/' _ _ hnos]
  have htkh : (hst ++ ':' :: (p ++ '/' :: pa)).take hst.length = hst := List.take_left hst _
  have htkj : (hst ++ ':' :: (p ++ '/' :: pa)).take ((hst ++ ':' :: p).length) =
      hst ++ ':' :: p := by
    rw [hsh]
    exact List.take_left _ _
  have hdpj : (hst ++ ':' :: (p ++ '/' :: pa)).drop ((hst ++ ':' :: p).length + 1) = pa := by
    rw [hsh, List.drop_append 1]
    rfl
  simp only [url_parse, strstrSS_ssh]
  rw [if_neg (strncmp_dir_on_ssh _), if_pos (strncmp_ssh_on_ssh _)]
  have hdrop6 : List.drop 6
      ('s' :: 's' :: 'h' :: ':' :: '/' :: '/' :: (hst ++ ':' :: (p ++ '/' :: pa))) =
      hst ++ ':' :: (p ++ '/' :: pa) := rfl
  rw [hdrop6]
  simp only [hat, hcol, hslash, htkh, htkj, hdpj]
  rw [if_neg hh]

/-- url_parse of `ssh://host/path` (no user, no port). -/
lemma url_parse_ssh_plain (hst pa : List Char) (u0 : url_t)
    (hah : '@' ∉ hst) (hapa : '@' ∉ pa) (hhc : ':' ∉ hst) (hpc : ':' ∉ pa)
    (hhs : '/' ∉ hst) :
    url_parse ("ssh://".data ++ (hst ++ '/' :: pa)) u0 = some ⟨pa, hst, [], []⟩ := by
  show url_parse ('s' :: 's' :: 'h' :: ':' :: '/' :: '/' :: (hst ++ '/' :: pa)) u0 = _
  have hat : strchrIdx '@' (hst ++ '/' :: pa) = none := by
    apply strchrIdx_not_mem
    intro hm
    rcases List.mem_append.mp hm with hm1 | hm2
    · exact hah hm1
    · rcases List.mem_cons.mp hm2 with hcc | hcc
      · exact absurd hcc (by decide)
      · exact hapa hcc
  have hcol : strchrIdx ':' (hst ++ '/' :: pa) = none := by
    apply strchrIdx_not_mem
    intro hm
    rcases List.mem_append.mp hm with hm1 | hm2
    · exact hhc hm1
    · rcases List.mem_cons.mp hm2 with hcc | hcc
      · exact absurd hcc (by decide)
      · exact hpc hcc
  have hslash : strchrIdx '/' (hst ++ '/' :: pa) = some hst.length :=
    strchrIdx_append '/' hst _ hhs
  have htkh : (hst ++ '/' :: pa).take hst.length = hst := List.take_left hst _
  have hdpj : (hst ++ '/' :: pa).drop (hst.length + 1) = pa := by
    rw [List.drop_append 1]
    rfl
  simp only [url_parse, strstrSS_ssh]
  rw [if_neg (strncmp_dir_on_ssh _), if_pos (strncmp_ssh_on_ssh _)]
  have hdrop6 : List.drop 6
      ('s' :: 's' :: 'h' :: ':' :: '/' :: '/' :: (hst ++ '/' :: pa)) = hst ++ '/' :: pa := rfl
  rw [hdrop6]
  simp only [hat, hcol, hslash, htkh, hdpj]
  simp

/-- url_parse of `dir://path`: path stored, host cleared, user and port
    fields untouched. -/
lemma url_parse_dir (pa : List Char) (u0 : url_t) :
    url_parse ("dir://".data ++ pa) u0 = some { u0 with path := pa, host := [] } := by
  show url_parse ('d' :: 'i' :: 'r' :: ':' :: '/' :: '/' :: pa) u0 = _
  simp only [url_parse, strstrSS_dir]
  rw [if_pos (strncmp_dir_on_dir pa)]
  rfl

/-- url_parse of `tcp://...`: the branch is unimplemented and falls through
    to the error return. -/
lemma url_parse_tcp (r : List Char) (u0 : url_t) :
    url_parse ("tcp://".data ++ r) u0 = none := by
  show url_parse ('t' :: 'c' :: 'p' :: ':' :: '/' :: '/' :: r) u0 = _
  simp only [url_parse, strstrSS_tcp]
  rw [if_neg (strncmp_head_ne 'd' 't' _ _ 5 (by decide) (by decide))]
  rw [if_neg (strncmp_head_ne 's' 't' _ _ 5 (by decide) (by decide))]

/-- C4 counterexample: for `ssh://h:22/p` the claim requires the parsed port
    field to be exactly the port substring "22", but url_parse stores
    "h:22" (the source never advances str past the host before slicing the
    port). -/
theorem spec_c4_counterexample :
    url_parse "ssh://h:22/p".data ⟨[], [], [], []⟩ =
      some ⟨"p".data, "h".data, [], "h:22".data⟩ ∧ "h:22".data ≠ "22".data := by
  constructor
  · decide
  · decide

/-- C4 amended: `dir://<path>` yields the path with empty host; `tcp://` is
    rejected; `ssh://[user@]host[:port]/path` (with separator characters not
    recurring in the earlier components, and, in the no-port form, no colon
    elsewhere in the string) parses user, host and path into their fields,
    but when a port is present the port field receives "host:port" — the
    substring from the start of the host up to the path slash — rather than
    the port alone. -/
theorem spec_c4_url_parse :
    (∀ u hst p pa u0, '@' ∉ u → ':' ∉ hst → '/' ∉ hst → '/' ∉ p → hst ≠ [] →
      url_parse ("ssh://".data ++ (u ++ '@' :: (hst ++ ':' :: (p ++ '/' :: pa)))) u0 =
        some ⟨pa, hst, u, hst ++ ':' :: p⟩) ∧
    (∀ u hst pa u0, '@' ∉ u → ':' ∉ hst → ':' ∉ pa → '/' ∉ hst →
      url_parse ("ssh://".data ++ (u ++ '@' :: (hst ++ '/' :: pa))) u0 =
        some ⟨pa, hst, u, []⟩) ∧
    (∀ hst p pa u0, '@' ∉ hst → '@' ∉ p → '@' ∉ pa → ':' ∉ hst → '/' ∉ hst → '/' ∉ p →
      hst ≠ [] →
      url_parse ("ssh://".data ++ (hst ++ ':' :: (p ++ '/' :: pa))) u0 =
        some ⟨pa, hst, [], hst ++ ':' :: p⟩) ∧
    (∀ hst pa u0, '@' ∉ hst → '@' ∉ pa → ':' ∉ hst → ':' ∉ pa → '/' ∉ hst →
      url_parse ("ssh://".data ++ (hst ++ '/' :: pa)) u0 = some ⟨pa, hst, [], []⟩) ∧
    (∀ pa u0, url_parse ("dir://".data ++ pa) u0 = some { u0 with path := pa, host := [] }) ∧
    (∀ r u0, url_parse ("tcp://".data ++ r) u0 = none) :=
  ⟨fun u hst p pa u0 h1 h2 h3 h4 h5 => url_parse_ssh_user_port u hst p pa u0 h1 h2 h3 h4 h5,
   fun u hst pa u0 h1 h2 h3 h4 => url_parse_ssh_user_noport u hst pa u0 h1 h2 h3 h4,
   fun hst p pa u0 h1 h2 h3 h4 h5 h6 h7 =>
     url_parse_ssh_nouser_port hst p pa u0 h1 h2 h3 h4 h5 h6 h7,
   fun hst pa u0 h1 h2 h3 h4 h5 => url_parse_ssh_plain hst pa u0 h1 h2 h3 h4 h5,
   fun pa u0 => url_parse_dir pa u0,
   fun r u0 => url_parse_tcp r u0⟩

/-- C4 witness: a full ssh URL with user and port, parsed concretely. -/
theorem spec_c4_url_parse_witness :
    url_parse "ssh://alice@node7:2222/scratch".data ⟨[], [], [], []⟩ =
      some ⟨"scratch".data, "node7".data, "alice".data, "node7:2222".data⟩ := by
  have h := spec_c4_url_parse.1 "alice".data "node7".data "2222".data "scratch".data
    ⟨[], [], [], []⟩ (by decide) (by decide) (by decide) (by decide) (by decide)
  have he : "ssh://".data ++
      ("alice".data ++ '@' :: ("node7".data ++ ':' :: ("2222".data ++ '/' :: "scratch".data))) =
      "ssh://alice@node7:2222/scratch".data := by decide
  have he2 : ("node7".data ++ ':' :: "2222".data) = "node7:2222".data := by decide
  rw [he, he2] at h
  exact h

/-- C5 counterexample: with a reply endpoint configured and the copy command
    failing (scp exit status 1, nonzero), the local result file is removed
    anyway — "deleted only on success of that copy" is false (the source
    discards the system(3) return value). -/
theorem spec_c5_counterexample :
    (mesg_write "/out".data ⟨"rdir".data, "rhost".data, [], []⟩ 5 1).local_removed = true ∧
      (1 : Int) ≠ 0 := by
  constructor
  · decide
  · decide

/-- C5 amended: every published result at step s is written to the local file
    `code_complete.<s>`; when a reply endpoint is configured the file is
    copied via scp and the local copy is deleted unconditionally, regardless
    of the copy's exit status (the outcome is independent of it); with no
    reply endpoint the local file is left in place and no copy happens. -/
theorem spec_c5_mesg_write :
    ∀ (lp : List Char) (reply : url_t) (step scp1 scp2 : Int),
      (mesg_write lp reply step scp1).filename =
        lp ++ '/' :: "code_complete".data ++ '.' :: intToDec step ∧
      mesg_write lp reply step scp1 = mesg_write lp reply step scp2 ∧
      (reply.host = [] →
        (mesg_write lp reply step scp1).local_removed = false ∧
        (mesg_write lp reply step scp1).scp_invoked = false) ∧
      (reply.host ≠ [] →
        (mesg_write lp reply step scp1).local_removed = true ∧
        (mesg_write lp reply step scp1).scp_invoked = true) := by
  intro lp reply step scp1 scp2
  unfold mesg_write
  by_cases h : reply.host = []
  · simp [h]
  · simp [h]

/-- C5 witness: concrete runs with and without a reply host, the former with
    a failing copy. -/
theorem spec_c5_mesg_write_witness :
    (mesg_write "/out".data ⟨"rdir".data, "rhost".data, [], []⟩ 7 1).local_removed = true ∧
      (mesg_write "/out".data ⟨"rdir".data, [], [], []⟩ 7 0).local_removed = false := by
  constructor
  · exact ((spec_c5_mesg_write "/out".data ⟨"rdir".data, "rhost".data, [], []⟩ 7 1 0).2.2.2
      (by decide)).1
  · exact ((spec_c5_mesg_write "/out".data ⟨"rdir".data, [], [], []⟩ 7 0 0).2.2.1 rfl).1

/-- readN succeeds exactly when the file holds enough bytes. -/
lemma readN_ok (file : List Nat) :
    ∀ (n pos : Nat), pos + n ≤ file.length → readN file pos n = some (pos + n) := by
  intro n
  induction n with
  | zero => intro pos _; rfl
  | succ n ih =>
    intro pos h
    have hp : pos < file.length := by omega
    simp only [readN, if_pos hp]
    have := ih (pos + 1) (by omega)
    rw [this]
    congr 1
    omega

/-- readN fails when the file is exhausted before n further bytes. -/
lemma readN_err (file : List Nat) :
    ∀ (n pos : Nat), 0 < n → file.length < pos + n → readN file pos n = none := by
  intro n
  induction n with
  | zero => intro pos h; omega
  | succ n ih =>
    intro pos _ h
    by_cases hp : pos < file.length
    · simp only [readN, if_pos hp]
      cases n with
      | zero => omega
      | succ m => exact ih (pos + 1) (by omega) (by omega)
    · simp only [readN, if_neg hp]

/-- read_loop with a non-positive length reads nothing and succeeds. -/
lemma read_loop_nonpos (file : List Nat) (pos : Nat) (len : Int) (h : len ≤ 0) :
    read_loop file pos len = some pos := by
  unfold read_loop
  rw [if_neg (by omega)]

/-- read_loop over an available range succeeds, advancing by n. -/
lemma read_loop_ok (file : List Nat) (pos n : Nat) (h : pos + n ≤ file.length) :
    read_loop file pos (n : Int) = some (pos + n) := by
  unfold read_loop
  by_cases h0 : 0 < n
  · rw [if_pos (by exact_mod_cast h0)]
    rw [Int.toNat_ofNat]
    exact readN_ok file n pos h
  · have hn : n = 0 := by omega
    subst hn
    rw [if_neg (by omega)]
    rfl

/-- read_loop past the end of the file fails. -/
lemma read_loop_err (file : List Nat) (pos n : Nat) (h0 : 0 < n)
    (h : file.length < pos + n) : read_loop file pos (n : Int) = none := by
  unfold read_loop
  rw [if_pos (by exact_mod_cast h0), Int.toNat_ofNat]
  exact readN_err file n pos h0 h

/-- C6 counterexample: a well-formed 6-byte file whose declared total length
    is 5 (below the 6-byte header).  The claim's error conditions do not hold
    (magic matches, 6 ≥ 5 bytes are available), so the claim requires exactly
    5 bytes to be read; the code reads the 6 header bytes. -/
theorem spec_c6_counterexample :
    mesg_read [0x52, 0x61, 0x79, 0x3e, 0, 5] = some (6, [0x52, 0x61, 0x79, 0x3e, 0, 0]) ∧
      fileMsgLen [0x52, 0x61, 0x79, 0x3e, 0, 5] = 5 ∧
      fileMagic [0x52, 0x61, 0x79, 0x3e, 0, 5] = HARMONY_MAGIC ∧ (6 : Nat) ≠ 5 := by
  refine ⟨by decide, by decide, by decide, by decide⟩

/-- C6 amended: decoding fails when fewer than the 6 header bytes are
    available, when the magic does not match, or when fewer bytes than the
    declared 16-bit big-endian total length are available; otherwise it reads
    exactly max(header length, declared length) bytes (stated for declared
    lengths ≥ 5; below 5 the source overflows its own allocation). -/
theorem spec_c6_mesg_read (file : List Nat) :
    (file.length < HARMONY_HDRLEN → mesg_read file = none) ∧
    (HARMONY_HDRLEN ≤ file.length → fileMagic file ≠ HARMONY_MAGIC →
      mesg_read file = none) ∧
    (HARMONY_HDRLEN ≤ file.length → fileMagic file = HARMONY_MAGIC →
      file.length < fileMsgLen file → mesg_read file = none) ∧
    (HARMONY_HDRLEN ≤ file.length → fileMagic file = HARMONY_MAGIC →
      5 ≤ fileMsgLen file → fileMsgLen file ≤ file.length →
      mesg_read file =
        some (max HARMONY_HDRLEN (fileMsgLen file), file.take (fileMsgLen file) ++ [0])) := by
  have hhdr : HARMONY_HDRLEN = 6 := rfl
  refine ⟨?_, ?_, ?_, ?_⟩
  · intro hshort
    unfold mesg_read
    rw [show ((HARMONY_HDRLEN : Nat) : Int) = ((6 : Nat) : Int) from rfl]
    rw [read_loop_err file 0 6 (by omega) (by omega)]
  · intro hlong hmag
    unfold mesg_read
    rw [show ((HARMONY_HDRLEN : Nat) : Int) = ((6 : Nat) : Int) from rfl]
    rw [read_loop_ok file 0 6 (by omega)]
    simp only [if_pos hmag]
  · intro hlong hmag hover
    unfold mesg_read
    rw [show ((HARMONY_HDRLEN : Nat) : Int) = ((6 : Nat) : Int) from rfl]
    rw [read_loop_ok file 0 6 (by omega)]
    simp only [hmag, ne_eq, not_true_eq_false, if_false, Bool.false_eq_true]
    have hcast : (fileMsgLen file : Int) - ((6 : Nat) : Int) =
        ((fileMsgLen file - 6 : Nat) : Int) := by
      rw [hhdr] at hlong
      push_cast
      omega
    rw [hcast, read_loop_err file (0 + 6) (fileMsgLen file - 6) (by omega) (by omega)]
  · intro hlong hmag h5 hle
    unfold mesg_read
    rw [show ((HARMONY_HDRLEN : Nat) : Int) = ((6 : Nat) : Int) from rfl]
    rw [read_loop_ok file 0 6 (by omega)]
    simp only [hmag, ne_eq, not_true_eq_false, if_false, Bool.false_eq_true]
    by_cases h6 : 6 ≤ fileMsgLen file
    · have hcast : (fileMsgLen file : Int) - ((6 : Nat) : Int) =
          ((fileMsgLen file - 6 : Nat) : Int) := by
        push_cast
        omega
      rw [hcast, read_loop_ok file (0 + 6) (fileMsgLen file - 6) (by omega)]
      have hpos2 : 0 + 6 + (fileMsgLen file - 6) = max HARMONY_HDRLEN (fileMsgLen file) := by
        rw [hhdr]
        omega
      rw [hpos2]
    · have h5' : fileMsgLen file = 5 := by omega
      rw [read_loop_nonpos file (0 + 6) _ (by rw [h5']; decide)]
      have hpos2 : 0 + 6 = max HARMONY_HDRLEN (fileMsgLen file) := by
        rw [hhdr]
        omega
      rw [hpos2]

/-- C6 witness: a complete valid 8-byte envelope is consumed exactly. -/
theorem spec_c6_mesg_read_witness :
    mesg_read [0x52, 0x61, 0x79, 0x3e, 0, 8, 1, 2] =
      some (8, [0x52, 0x61, 0x79, 0x3e, 0, 8, 1, 2, 0]) := by
  have h := (spec_c6_mesg_read [0x52, 0x61, 0x79, 0x3e, 0, 8, 1, 2]).2.2.2
    (by decide) (by decide) (by decide) (by decide)
  rw [show fileMsgLen [0x52, 0x61, 0x79, 0x3e, 0, 8, 1, 2] = 8 from by decide] at h
  simpa using h

/-- Unfolding of livePids over a cons. -/
lemma livePids_cons (g : generator_t) (gs : List generator_t) :
    livePids (g :: gs) = if g.pid ≠ 0 then g.pid :: livePids gs else livePids gs := by
  by_cases h : g.pid = 0 <;> simp [livePids, List.filter_cons, h]

/-- Any pid live after a dispatch is the new pid or was live before. -/
lemma dispatch_mem (p st : Int) :
    ∀ (gs : List generator_t) (x : Int), x ∈ livePids (dispatch_slot gs p st) →
      x = p ∨ x ∈ livePids gs := by
  intro gs
  induction gs with
  | nil => intro x hx; simp [dispatch_slot, livePids] at hx
  | cons g gs ih =>
    intro x hx
    by_cases h : g.pid = 0
    · simp only [dispatch_slot, if_pos h] at hx
      rw [livePids_cons] at hx
      rw [livePids_cons, if_neg (by simp [h])]
      by_cases hp : p = 0
      · rw [if_neg (by simpa using hp)] at hx
        exact Or.inr hx
      · rw [if_pos (by simpa using hp)] at hx
        rcases List.mem_cons.mp hx with hx1 | hx2
        · exact Or.inl hx1
        · exact Or.inr hx2
    · simp only [dispatch_slot, if_neg h] at hx
      rw [livePids_cons, if_pos (by simpa using h)] at hx
      rw [livePids_cons, if_pos (by simpa using h)]
      rcases List.mem_cons.mp hx with hx1 | hx2
      · exact Or.inr (hx1 ▸ List.mem_cons_self _ _)
      · rcases ih x hx2 with hh | hh
        · exact Or.inl hh
        · exact Or.inr (List.mem_cons_of_mem _ hh)

/-- Dispatching a fresh pid preserves distinctness of live pids. -/
lemma dispatch_preserves (p st : Int) :
    ∀ gs : List generator_t, (livePids gs).Nodup → p ∉ livePids gs →
      (livePids (dispatch_slot gs p st)).Nodup := by
  intro gs
  induction gs with
  | nil => intro _ _; simp [dispatch_slot, livePids]
  | cons g gs ih =>
    intro hnodup hfresh
    rw [livePids_cons] at hnodup hfresh
    by_cases h : g.pid = 0
    · simp only [dispatch_slot, if_pos h]
      rw [if_neg (by simp [h])] at hnodup hfresh
      rw [livePids_cons]
      by_cases hp : p = 0
      · rw [if_neg (by simpa using hp)]
        exact hnodup
      · rw [if_pos (by simpa using hp)]
        exact List.Nodup.cons hfresh hnodup
    · simp only [dispatch_slot, if_neg h]
      rw [if_pos (by simpa using h)] at hnodup hfresh
      rw [livePids_cons, if_pos (by simpa using h)]
      have hgp : g.pid ∉ livePids (dispatch_slot gs p st) := by
        intro hmem
        rcases dispatch_mem p st gs g.pid hmem with h1 | h2
        · exact hfresh (h1 ▸ List.mem_cons_self _ _)
        · exact (List.nodup_cons.mp hnodup).1 h2
      exact List.Nodup.cons hgp
        (ih (List.nodup_cons.mp hnodup).2
          (fun hm => hfresh (List.mem_cons_of_mem _ hm)))

/-- Any pid live after a reap was live before. -/
lemma slave_mem (p : Int) :
    ∀ (gs : List generator_t) (x : Int), x ∈ livePids (slave_complete gs p).2 →
      x ∈ livePids gs := by
  intro gs
  induction gs with
  | nil => intro x hx; simp [slave_complete, livePids] at hx
  | cons g gs ih =>
    intro x hx
    by_cases h : g.pid = p
    · simp only [slave_complete, if_pos h] at hx
      rw [livePids_cons, if_neg (by simp)] at hx
      rw [livePids_cons]
      by_cases hg : g.pid = 0
      · rwa [if_neg (by simpa using hg)]
      · rw [if_pos (by simpa using hg)]
        exact List.mem_cons_of_mem _ hx
    · simp only [slave_complete, if_neg h] at hx
      rw [livePids_cons] at hx ⊢
      by_cases hg : g.pid = 0
      · rw [if_neg (by simpa using hg)] at hx ⊢
        exact ih x hx
      · rw [if_pos (by simpa using hg)] at hx ⊢
        rcases List.mem_cons.mp hx with h1 | h2
        · exact h1 ▸ List.mem_cons_self _ _
        · exact List.mem_cons_of_mem _ (ih x h2)

/-- Reaping preserves distinctness of live pids. -/
lemma slave_preserves (p : Int) :
    ∀ gs : List generator_t, (livePids gs).Nodup →
      (livePids (slave_complete gs p).2).Nodup := by
  intro gs
  induction gs with
  | nil => intro _; simp [slave_complete, livePids]
  | cons g gs ih =>
    intro hnodup
    rw [livePids_cons] at hnodup
    by_cases h : g.pid = p
    · simp only [slave_complete, if_pos h]
      rw [livePids_cons, if_neg (by simp)]
      by_cases hg : g.pid = 0
      · rwa [if_neg (by simpa using hg)] at hnodup
      · exact (List.nodup_cons.mp ((if_pos (by simpa using hg : g.pid ≠ 0)) ▸ hnodup)).2
    · simp only [slave_complete, if_neg h]
      rw [livePids_cons]
      by_cases hg : g.pid = 0
      · rw [if_neg (by simpa using hg)]
        rw [if_neg (by simpa using hg)] at hnodup
        exact ih hnodup
      · rw [if_pos (by simpa using hg)]
        rw [if_pos (by simpa using hg)] at hnodup
        refine List.Nodup.cons ?_ (ih (List.nodup_cons.mp hnodup).2)
        intro hmem
        exact (List.nodup_cons.mp hnodup).1 (slave_mem p gs g.pid hmem)

/-- A registry whose slots all carry pid 0 has no live pids. -/
lemma livePids_all_zero (ns : List generator_t) (h : ∀ g ∈ ns, g.pid = 0) :
    livePids ns = [] := by
  induction ns with
  | nil => rfl
  | cons g gs ih =>
    rw [livePids_cons, if_neg (by simpa using h g (List.mem_cons_self g gs))]
    exact ih (fun x hx => h x (List.mem_cons_of_mem g hx))

/-- One environment-respecting event preserves the pid invariant. -/
lemma runEv_preserves (slots : List generator_t) (e : CodeEv)
    (hinv : PidInv slots) (hok : okEv slots e = true) : PidInv (runEv slots e) := by
  cases e with
  | dispatch p st =>
    simp only [okEv, Bool.and_eq_true, List.all_eq_true] at hok
    obtain ⟨_, hall⟩ := hok
    have hfresh : p ∉ livePids slots := by
      intro hmem
      have := hall p hmem
      simp at this
    exact dispatch_preserves p st slots hinv hfresh
  | reap p => exact slave_preserves p slots hinv
  | reinit ns =>
    have hz : ∀ g ∈ ns, g.pid = 0 := by
      simp only [okEv, List.all_eq_true] at hok
      intro g hg
      have := hok g hg
      simpa using this
    show PidInv ns
    unfold PidInv
    rw [livePids_all_zero ns hz]
    exact List.nodup_nil

/-- The pid invariant is preserved along any environment-respecting trace. -/
lemma runTrace_preserves :
    ∀ (evs : List CodeEv) (slots : List generator_t), PidInv slots →
      okTrace slots evs = true → PidInv (runTrace slots evs) := by
  intro evs
  induction evs with
  | nil => intro slots h _; exact h
  | cons e evs ih =>
    intro slots hinv hok
    simp only [okTrace, Bool.and_eq_true] at hok
    exact ih (runEv slots e) (runEv_preserves slots e hinv hok.1) hok.2

/-- dispatch_slot either leaves the registry unchanged (no free slot: the
    source asserts and dies) or rewrites exactly the first slot whose pid is
    0, every earlier slot being busy. -/
lemma dispatch_slot_spec (p st : Int) :
    ∀ gs : List generator_t,
      ((∀ g ∈ gs, g.pid ≠ 0) ∧ dispatch_slot gs p st = gs) ∨
      ∃ pre g post, gs = pre ++ g :: post ∧ (∀ g2 ∈ pre, g2.pid ≠ 0) ∧ g.pid = 0 ∧
        dispatch_slot gs p st = pre ++ { g with pid := p, step := st } :: post := by
  intro gs
  induction gs with
  | nil => exact Or.inl ⟨by simp, rfl⟩
  | cons g gs ih =>
    by_cases h : g.pid = 0
    · exact Or.inr ⟨[], g, gs, rfl, by simp, h, by simp [dispatch_slot, h]⟩
    · rcases ih with ⟨hall, heq⟩ | ⟨pre, g0, post, hsplit, hpre, hg0, heq⟩
      · refine Or.inl ⟨?_, by simp [dispatch_slot, h, heq]⟩
        intro x hx
        rcases List.mem_cons.mp hx with h1 | h2
        · exact h1 ▸ h
        · exact hall x h2
      · refine Or.inr ⟨g :: pre, g0, post, by rw [hsplit]; rfl, ?_, hg0,
          by simp [dispatch_slot, h, heq]⟩
        intro x hx
        rcases List.mem_cons.mp hx with h1 | h2
        · exact h1 ▸ h
        · exact hpre x h2

/-- slave_complete either finds no slot owning the reaped pid (returns -1,
    registry unchanged) or clears exactly the first slot holding it. -/
lemma slave_complete_spec (p : Int) :
    ∀ gs : List generator_t,
      ((∀ g ∈ gs, g.pid ≠ p) ∧ slave_complete gs p = (-1, gs)) ∨
      ∃ pre g post, gs = pre ++ g :: post ∧ (∀ g2 ∈ pre, g2.pid ≠ p) ∧ g.pid = p ∧
        slave_complete gs p = (0, pre ++ { g with pid := 0 } :: post) := by
  intro gs
  induction gs with
  | nil => exact Or.inl ⟨by simp, rfl⟩
  | cons g gs ih =>
    by_cases h : g.pid = p
    · exact Or.inr ⟨[], g, gs, rfl, by simp, h, by simp [slave_complete, h]⟩
    · rcases ih with ⟨hall, heq⟩ | ⟨pre, g0, post, hsplit, hpre, hg0, heq⟩
      · refine Or.inl ⟨?_, by simp [slave_complete, h, heq]⟩
        intro x hx
        rcases List.mem_cons.mp hx with h1 | h2
        · exact h1 ▸ h
        · exact hall x h2
      · refine Or.inr ⟨g :: pre, g0, post, by rw [hsplit]; rfl, ?_, hg0,
          by simp [slave_complete, h, heq]⟩
        intro x hx
        rcases List.mem_cons.mp hx with h1 | h2
        · exact h1 ▸ h
        · exact hpre x h2

/-- C7: along any session trace whose dispatches use fresh fork pids and
    whose registry rebuilds come from parse_slave_list (all pids 0), no two
    slots ever hold the same nonzero pid; dispatch only ever rewrites the
    first slot whose pid is the idle marker 0 (never a busy slot); and a
    slot's pid is reset to 0 only by reaping exactly the slot that holds the
    reaped worker's pid. -/
theorem spec_c7_slot_invariant :
    (∀ (evs : List CodeEv) (slots : List generator_t), PidInv slots →
      okTrace slots evs = true → PidInv (runTrace slots evs)) ∧
    (∀ (p st : Int) (gs : List generator_t),
      ((∀ g ∈ gs, g.pid ≠ 0) ∧ dispatch_slot gs p st = gs) ∨
      ∃ pre g post, gs = pre ++ g :: post ∧ (∀ g2 ∈ pre, g2.pid ≠ 0) ∧ g.pid = 0 ∧
        dispatch_slot gs p st = pre ++ { g with pid := p, step := st } :: post) ∧
    (∀ (p : Int) (gs : List generator_t),
      ((∀ g ∈ gs, g.pid ≠ p) ∧ slave_complete gs p = (-1, gs)) ∨
      ∃ pre g post, gs = pre ++ g :: post ∧ (∀ g2 ∈ pre, g2.pid ≠ p) ∧ g.pid = p ∧
        slave_complete gs p = (0, pre ++ { g with pid := 0 } :: post)) :=
  ⟨runTrace_preserves,
   fun p st gs => dispatch_slot_spec p st gs,
   fun p gs => slave_complete_spec p gs⟩

/-- C7 witness: a concrete two-slot session trace (two dispatches, one reap)
    keeps the invariant. -/
theorem spec_c7_slot_invariant_witness :
    PidInv (runTrace [⟨0, 0, "a_1".data⟩, ⟨0, 0, "a_2".data⟩]
      [.dispatch 41 0, .dispatch 42 1, .reap 41, .dispatch 43 2]) :=
  spec_c7_slot_invariant.1 [.dispatch 41 0, .dispatch 42 1, .reap 41, .dispatch 43 2]
    [⟨0, 0, "a_1".data⟩, ⟨0, 0, "a_2".data⟩] (by unfold PidInv; decide) (by decide)

/-- C8: the dispatched slot's logical hostname (portion before the slot
    suffix) selects the command form: equal to the local endpoint's host
    gives the local form — plain double-quoted value array, no remote-shell
    prefix; any other logical hostname gives the remote form — `ssh <host>`
    prefix and escaped-quote value array. -/
theorem spec_c8_local_remote_routing :
    ∀ (gen : generator_t) (values : List Int) (appname slave_path : List Char)
      (local_url target_url : url_t) (sys_return : Int),
      (logical_name gen.hostname = local_url.host →
        (generator_main gen values appname slave_path local_url target_url
            sys_return).command =
          "exec ".data ++ slave_path ++ '/' :: gen.hostname ++ '_' :: appname
            ++ "/chill_script.".data ++ appname ++ ".sh ".data
            ++ vector_to_bash_array_local values
            ++ logical_name gen.hostname ++ [' ']
            ++ slave_path ++ '/' :: gen.hostname ++ '_' :: appname ++ [' ']
            ++ target_url.host ++ [' '] ++ target_url.path ∧
        ¬ ("ssh ".data <+: (generator_main gen values appname slave_path local_url
            target_url sys_return).command)) ∧
      (logical_name gen.hostname ≠ local_url.host →
        (generator_main gen values appname slave_path local_url target_url
            sys_return).command =
          ("ssh ".data ++ logical_name gen.hostname ++ [' '])
            ++ "exec ".data ++ slave_path ++ '/' :: gen.hostname ++ '_' :: appname
            ++ "/chill_script.".data ++ appname ++ ".sh ".data
            ++ vector_to_bash_array_remote values
            ++ logical_name gen.hostname ++ [' ']
            ++ slave_path ++ '/' :: gen.hostname ++ '_' :: appname ++ [' ']
            ++ target_url.host ++ [' '] ++ target_url.path) := by
  intro gen values appname slave_path local_url target_url sys_return
  constructor
  · intro hflag
    have hcmd : (generator_main gen values appname slave_path local_url target_url
        sys_return).command =
        "exec ".data ++ slave_path ++ '/' :: gen.hostname ++ '_' :: appname
          ++ "/chill_script.".data ++ appname ++ ".sh ".data
          ++ vector_to_bash_array_local values
          ++ logical_name gen.hostname ++ [' ']
          ++ slave_path ++ '/' :: gen.hostname ++ '_' :: appname ++ [' ']
          ++ target_url.host ++ [' '] ++ target_url.path := by
      unfold generator_main
      simp only [if_pos hflag, List.nil_append]
    refine ⟨hcmd, ?_⟩
    rw [hcmd]
    intro hpre
    obtain ⟨t, ht⟩ := hpre
    have hh := congrArg List.head? ht
    simp only [List.cons_append, List.head?_cons] at hh
    exact absurd hh (by decide)
  · intro hflag
    unfold generator_main
    simp only [if_neg hflag]

/-- C8 witness: concrete local and remote dispatches build the two command
    forms. -/
theorem spec_c8_local_remote_routing_witness :
    (generator_main ⟨0, 0, "node7_1".data⟩ [3] "app".data "/sl".data
        ⟨"/in".data, "node7".data, [], []⟩ ⟨"/t".data, "th".data, [], []⟩ 0).command =
      "exec /sl/node7_1_app/chill_script.app.sh \"3 \" node7 /sl/node7_1_app th /t".data ∧
    (generator_main ⟨0, 0, "mars_1".data⟩ [3] "app".data "/sl".data
        ⟨"/in".data, "node7".data, [], []⟩ ⟨"/t".data, "th".data, [], []⟩ 0).command =
      "ssh mars exec /sl/mars_1_app/chill_script.app.sh \\\"3 \\\" mars /sl/mars_1_app th /t".data
    := by
  constructor
  · have h := (spec_c8_local_remote_routing ⟨0, 0, "node7_1".data⟩ [3] "app".data "/sl".data
      ⟨"/in".data, "node7".data, [], []⟩ ⟨"/t".data, "th".data, [], []⟩ 0).1 (by decide)
    rw [h.1]
    decide
  · have h := (spec_c8_local_remote_routing ⟨0, 0, "mars_1".data⟩ [3] "app".data "/sl".data
      ⟨"/in".data, "node7".data, [], []⟩ ⟨"/t".data, "th".data, [], []⟩ 0).2 (by decide)
    rw [h]
    decide

/-- The values_of loop discards everything on the first non-integer value. -/
lemma values_of_loop_nonint :
    ∀ (vals : List hval_t) (acc : List Int),
      (∃ v ∈ vals, v.isInt = false) → values_of_loop vals acc = [] := by
  intro vals
  induction vals with
  | nil => intro acc h; simp at h
  | cons v rest ih =>
    intro acc h
    cases v with
    | hint x =>
      obtain ⟨w, hw, hwint⟩ := h
      rcases List.mem_cons.mp hw with h1 | h2
      · rw [h1] at hwint; simp [hval_t.isInt] at hwint
      · exact ih (acc ++ [x]) ⟨w, h2, hwint⟩
    | hreal => rfl
    | hstr s => rfl

/-- C9: a point carrying any non-integer value makes values_of return the
    empty list (all previously accumulated integers discarded), so the
    external command receives an empty bash value array instead of
    failing. -/
theorem spec_c9_values_of_nonint (vals : List hval_t)
    (h : ∃ v ∈ vals, v.isInt = false) :
    values_of vals = [] ∧
      vector_to_bash_array_local (values_of vals) = "\"\" ".data ∧
      vector_to_bash_array_remote (values_of vals) = "\\\"\\\" ".data := by
  have hv : values_of vals = [] := values_of_loop_nonint vals [] h
  refine ⟨hv, ?_, ?_⟩
  · rw [hv]; decide
  · rw [hv]; decide

/-- C9 witness: an integer followed by an enumerated-string value yields an
    empty value list and empty arrays. -/
theorem spec_c9_values_of_nonint_witness :
    values_of [.hint 3, .hstr "x".data, .hint 7] = [] ∧
      vector_to_bash_array_local (values_of [.hint 3, .hstr "x".data, .hint 7]) =
        "\"\" ".data ∧
      vector_to_bash_array_remote (values_of [.hint 3, .hstr "x".data, .hint 7]) =
        "\\\"\\\" ".data :=
  spec_c9_values_of_nonint [.hint 3, .hstr "x".data, .hint 7]
    ⟨.hstr "x".data, by decide, by decide⟩

/-- The signed difference of two character codes vanishes only for equal
    characters. -/
lemma char_sub_ne (a b : Char) (h : a ≠ b) : (a.toNat : Int) - (b.toNat : Int) ≠ 0 := by
  intro hz
  have hval : a.toNat = b.toNat := by omega
  apply h
  apply Char.ext
  unfold Char.toNat at hval
  exact UInt32.toNat.inj hval

/-- strncmp bounded by the length of a NUL-free needle decides exactly the
    prefix relation, for NUL-free strings. -/
lemma strncmp_decides_pref :
    ∀ (p : List Char), '\x00' ∉ p → ∀ d : List Char, '\x00' ∉ d →
      (strncmp d p p.length = 0 ↔ p.isPrefixOf d = true) := by
  intro p
  induction p with
  | nil => intro _ d _; simp [strncmp, List.isPrefixOf]
  | cons q qs ih =>
    intro hnp d hnd
    have hq : q ≠ '\x00' := by
      intro hh; exact hnp (hh ▸ List.mem_cons_self q qs)
    cases d with
    | nil =>
      simp only [List.length_cons, strncmp, List.headD_nil, List.headD_cons]
      rw [if_pos (fun hh => hq hh.symm)]
      constructor
      · intro h
        exact absurd h (char_sub_ne '\x00' q (fun hh => hq hh.symm))
      · intro h
        simp [List.isPrefixOf] at h
    | cons x xs =>
      have hx : x ≠ '\x00' := by
        intro hh; exact hnd (hh ▸ List.mem_cons_self x xs)
      by_cases hxq : x = q
      · simp only [List.length_cons, strncmp, List.headD_cons]
        rw [if_neg (by simp [hxq]), if_neg hx]
        simp only [List.tail_cons]
        rw [ih (fun hm => hnp (List.mem_cons_of_mem q hm)) xs
          (fun hm => hnd (List.mem_cons_of_mem x hm))]
        simp [List.isPrefixOf, hxq]
      · simp only [List.length_cons, strncmp, List.headD_cons]
        rw [if_pos hxq]
        constructor
        · intro h
          exact absurd h (char_sub_ne x q hxq)
        · intro h
          simp only [List.isPrefixOf, List.cons_append] at h
          rw [Bool.and_eq_true, beq_iff_eq] at h
          exact absurd h.1.symm hxq

/-- C10: clearing the inbox removes exactly the files whose names begin with
    the point-request prefix "candidate", always preserving the
    initialization file "candidate.-1"; every other file survives. -/
theorem spec_c10_dir_erase (files : List (List Char))
    (hfiles : ∀ d ∈ files, '\x00' ∉ d) :
    dir_erase files =
      files.filter
        (fun d => (d == "candidate.-1".data) || !("candidate".data.isPrefixOf d)) := by
  induction files with
  | nil => rfl
  | cons d rest ih =>
    have hnd : '\x00' ∉ d := hfiles d (List.mem_cons_self d rest)
    have hrest : ∀ x ∈ rest, '\x00' ∉ x := fun x hx => hfiles x (List.mem_cons_of_mem d hx)
    by_cases hinit : d = "candidate.-1".data
    · simp only [dir_erase, if_pos hinit, List.filter_cons]
      rw [if_pos (by simp [hinit])]
      rw [ih hrest]
    · by_cases hpre : strncmp d "candidate".data ("candidate".data.length) = 0
      · have hpref : "candidate".data.isPrefixOf d = true :=
          (strncmp_decides_pref "candidate".data (by decide) d hnd).mp hpre
        simp only [dir_erase, if_neg hinit, if_pos hpre, List.filter_cons]
        rw [if_neg (by simp [hinit, hpref])]
        exact ih hrest
      · have hpref : ¬("candidate".data.isPrefixOf d = true) := by
          intro hh
          exact hpre ((strncmp_decides_pref "candidate".data (by decide) d hnd).mpr hh)
        simp only [dir_erase, if_neg hinit, if_neg hpre, List.filter_cons]
        rw [if_pos (by simp [hpref])]
        rw [ih hrest]

/-- C10 witness: a concrete inbox listing. -/
theorem spec_c10_dir_erase_witness :
    dir_erase ["candidate.0".data, "candidate.-1".data, "code_complete.0".data,
               "candidatezzz".data, "notes.txt".data] =
      ["candidate.-1".data, "code_complete.0".data, "notes.txt".data] := by
  have h := spec_c10_dir_erase
    ["candidate.0".data, "candidate.-1".data, "code_complete.0".data,
     "candidatezzz".data, "notes.txt".data] (by decide)
  rw [h]
  decide

/-- C1: the generator child prints the external command's status and then
    calls exit(0) unconditionally ("error check not done yet"), so for every
    exit status of the external generation command — including nonzero — the
    child reports status 0 and the dispatch loop's fatal-worker test does not
    fire: the coordinator survives failed generations, contradicting the
    claimed fatal behaviour. -/
theorem spec_c1_worker_exit_swallowed :
    ∀ (gen : generator_t) (values : List Int) (appname slave_path : List Char)
      (local_url target_url : url_t) (sys_return : Int),
      (generator_main gen values appname slave_path local_url target_url
        sys_return).exit_status = 0 ∧
      worker_failure_fatal true
        ((generator_main gen values appname slave_path local_url target_url
          sys_return).exit_status) = false := by
  intro gen values appname slave_path local_url target_url sys_return
  constructor
  · rfl
  · rfl
